import Mathlib

/-!
# Lister: directory-entry model and the sort / filter / format pipeline

A shallow embedding of `src/lister.c` and of the parts of `src/xpath.h` it uses.

* A C string is the list of its bytes before the terminating NUL; a byte is a
  natural number below 256.
* `char` is a signed 8-bit type on the ABIs the program is written for (x86
  Windows and x86 Linux), so a byte read through a `char *` is promoted to
  `int` by sign extension (`char_to_int`).
* The output stream is the list of bytes written to it.
* The globals `all_files` and `line_length` are explicit parameters.
-/

namespace Lister

/-! ## Data model (xpath.h) -/

/-- Attribute bit `XP_NORMAL`. -/
def XP_NORMAL : Nat := 0x1
/-- Attribute bit `XP_DIRECTORY`. -/
def XP_DIRECTORY : Nat := 0x2
/-- Attribute bit `XP_HIDDEN`. -/
def XP_HIDDEN : Nat := 0x4
/-- Attribute bit `XP_READONLY`. -/
def XP_READONLY : Nat := 0x8
/-- Attribute bit `XP_SYSTEM`. -/
def XP_SYSTEM : Nat := 0x10
/-- Attribute bit `XP_EXECUTABLE`. -/
def XP_EXECUTABLE : Nat := 0x20

/-- The struct `xp_path`: the bytes of `data` before the terminator, and `count`. -/
structure xp_path where
  data : List Nat
  count : Int
  deriving DecidableEq, Repr

/-- The struct `xp_file`: `name` is the C string, `bytes` and `time` are
`uint64_t`, `attributes` is `uint32_t`. -/
structure xp_file where
  name : List Nat
  bytes : Nat
  attributes : Nat
  time : Nat
  deriving DecidableEq, Repr

/-- The struct `xp_directory`: the array `files` and its length `file_count`. -/
structure xp_directory where
  path : xp_path
  files : List xp_file
  file_count : Nat
  deriving DecidableEq, Repr

/-- The bytes of an ASCII string literal. -/
def cstr (s : String) : List Nat := s.toList.map Char.toNat

/-- Promotion to `int` of a `char` holding the byte `b` (sign extension). -/
def char_to_int (b : Nat) : Int := if b < 128 then (b : Int) else (b : Int) - 256

/-! ## Comparators (lister.c) -/

/-- The loop shared by both string comparators:
`for (i = 0; i < len; i++) { int diff = s1[i] - s2[i]; if (diff == 0) continue; else return diff; } return 0;`
The first numeric argument is the number of iterations left (`len - i`), the second is `i`. -/
def diff_loop (s1 s2 : List Nat) : Nat → Nat → Int
  | 0, _ => 0
  | k + 1, i =>
    let diff := char_to_int (s1.getD i 0) - char_to_int (s2.getD i 0)
    if diff = 0 then diff_loop s1 s2 k (i + 1) else diff

/-- The function `compare_file_name`: `len = MIN(strlen(file1.name), strlen(file2.name))`,
then the comparison loop. -/
def compare_file_name (file1 file2 : xp_file) : Int :=
  let len := min file1.name.length file2.name.length
  diff_loop file1.name file2.name len 0

/-- The function `get_file_extension`, its loop: `extension` is `NULL` (`none`) or
points one past a `'.'` (byte 46) of the name, that is, at the rest of the string. -/
def get_file_extension_loop : List Nat → Option (List Nat) → Option (List Nat)
  | [], extension => extension
  | c :: rest, extension =>
    if c = 46 then get_file_extension_loop rest (some rest)
    else get_file_extension_loop rest extension

/-- The function `get_file_extension`. -/
def get_file_extension (file_name : List Nat) : Option (List Nat) :=
  get_file_extension_loop file_name none

/-- The function `compare_file_extension`; `strcmp(s, t) == 0` is equality of
the strings, `"."` is `[46]` and `".."` is `[46, 46]`. -/
def compare_file_extension (file1 file2 : xp_file) : Int :=
  if file1.name = [46] then -1
  else if file1.name = [46, 46] then -1
  else
    match get_file_extension file1.name, get_file_extension file2.name with
    | none, none => 0
    | none, some _ => -1
    | some _, none => 1
    | some ext1, some ext2 => diff_loop ext1 ext2 (min ext1.length ext2.length) 0

/-- The Win32 struct `FILETIME`: two 32-bit halves of a 64-bit time. -/
structure FILETIME where
  dwLowDateTime : Nat
  dwHighDateTime : Nat
  deriving DecidableEq, Repr

/-- The Win32 call `CompareFileTime`, by its documented contract: -1, 0 or 1 as
the first time is earlier than, equal to or later than the second. -/
def CompareFileTime (ft1 ft2 : FILETIME) : Int :=
  let t1 := ft1.dwHighDateTime * 2 ^ 32 + ft1.dwLowDateTime
  let t2 := ft2.dwHighDateTime * 2 ^ 32 + ft2.dwLowDateTime
  if t1 < t2 then -1 else if t1 = t2 then 0 else 1

/-- The function `compare_file_time`, `_WIN32` branch. -/
def compare_file_time_win32 (file1 file2 : xp_file) : Int :=
  let ft1 : FILETIME := ⟨file1.time % 2 ^ 32, (file1.time / 2 ^ 32) % 2 ^ 32⟩
  let ft2 : FILETIME := ⟨file2.time % 2 ^ 32, (file2.time / 2 ^ 32) % 2 ^ 32⟩
  CompareFileTime ft2 ft1

/-- The conversion of a `uint64_t` to `time_t`, a signed 64-bit integer, made
where a timestamp is passed to `difftime`: values from `2 ^ 63` on wrap to
negative ones. -/
def u64_to_time_t (t : Nat) : Int :=
  if t % 2 ^ 64 < 2 ^ 63 then ((t % 2 ^ 64 : Nat) : Int) else ((t % 2 ^ 64 : Nat) : Int) - 2 ^ 64

/-- The C library call `difftime(time1, time0)` on two `time_t` values: the
difference in seconds as a `double`. For differences of magnitude below `2 ^ 53`
the double is exactly this integer. -/
def difftime (time1 time0 : Int) : Int := time1 - time0

/-- The conversion `(int)x` of a floating value whose truncation is `t`: `t`
when it is representable in a 32-bit `int`. The C standard leaves the
out-of-range case undefined; the x86 conversion instructions the program is
compiled to deliver the value `-2 ^ 31` there. -/
def float_to_int (t : Int) : Int :=
  if -2 ^ 31 ≤ t ∧ t < 2 ^ 31 then t else -2 ^ 31

/-- The function `compare_file_time`, `__linux__` branch:
`(int)difftime(file2.time, file1.time)`, the two `uint64_t` timestamps being
converted to `time_t` at the call. -/
def compare_file_time_linux (file1 file2 : xp_file) : Int :=
  float_to_int (difftime (u64_to_time_t file2.time) (u64_to_time_t file1.time))

/-! ## Sorting and filtering (lister.c) -/

/-- The inner loop of `sort_files`,
`while (j >= 0 && sort_func(files[j], key) > 0) { files[j + 1] = files[j]; j--; } files[j + 1] = key;`
The numeric argument is `j + 1`. -/
def sort_files_shift (sort_func : xp_file → xp_file → Int) (key : xp_file) :
    List xp_file → Nat → List xp_file
  | files, 0 => files.set 0 key
  | files, j + 1 =>
    match files[j]? with
    | some fj =>
      if sort_func fj key > 0 then sort_files_shift sort_func key (files.set (j + 1) fj) j
      else files.set (j + 1) key
    | none => files.set (j + 1) key

/-- The outer loop of `sort_files`, `for (i = 1; i < file_count; i++)`: the first
numeric argument is the number of iterations left, the second is `i`. -/
def sort_files_from (sort_func : xp_file → xp_file → Int) :
    Nat → Nat → List xp_file → List xp_file
  | 0, _, files => files
  | k + 1, i, files =>
    match files[i]? with
    | some key => sort_files_from sort_func k (i + 1) (sort_files_shift sort_func key files i)
    | none => files

/-- The function `sort_files`. -/
def sort_files (dir : xp_directory) (sort_func : xp_file → xp_file → Int) : xp_directory :=
  { dir with files := sort_files_from sort_func (dir.file_count - 1) 1 dir.files }

/-- The function `abnormal_file`; `strncmp(name, ".", 1) == 0` holds when the
first byte of the name is `'.'`. -/
def abnormal_file (file : xp_file) : Bool :=
  if file.attributes &&& XP_HIDDEN ≠ 0 then true
  else if file.name.head? = some 46 then true
  else if file.name = [46, 46] then true
  else false

/-- The function `file_interesting`, the global `all_files` made a parameter. -/
def file_interesting (all_files : Bool) (file : xp_file) : Bool :=
  if !all_files && abnormal_file file then false else true

/-- The loop of `filter_directory_files`: the state is the new array (the
elements written so far; `files[file_count] = dir->files[i]` appends to it) and
the local `file_count`. -/
def filter_loop (all_files : Bool) (src : List xp_file) :
    Nat → Nat → List xp_file × Nat → List xp_file × Nat
  | 0, _, st => st
  | k + 1, i, (files, file_count) =>
    match src[i]? with
    | some f =>
      if file_interesting all_files f then
        filter_loop all_files src k (i + 1) (files ++ [f], file_count + 1)
      else filter_loop all_files src k (i + 1) (files, file_count)
    | none => (files, file_count)

/-- The function `filter_directory_files`. -/
def filter_directory_files (all_files : Bool) (dir : xp_directory) : xp_directory :=
  let (files, file_count) := filter_loop all_files dir.files dir.file_count 0 ([], 0)
  { dir with files := files.take file_count, file_count := file_count }

/-! ## Formatting (lister.c) -/

/-- The loop of `get_name_length`: the state is `(length, spaces)`; byte 32 is `' '`. -/
def get_name_length_loop : List Nat → Int × Bool → Int × Bool
  | [], st => st
  | c :: rest, (length, spaces) =>
    if c = 32 then get_name_length_loop rest (length + 1, true)
    else get_name_length_loop rest (length + 1, spaces)

/-- The function `get_name_length`. -/
def get_name_length (name : List Nat) : Int :=
  let (length, spaces) := get_name_length_loop name (0, false)
  if spaces then length + 2 else length

/-- The function `has_spaces`. -/
def has_spaces : List Nat → Bool
  | [] => false
  | c :: rest => if c = 32 then true else has_spaces rest

/-- The decimal digits of a natural number, as bytes. -/
def print_nat (n : Nat) : List Nat := (Nat.toDigits 10 n).map Char.toNat

/-- The conversion `%d` of `printf`. -/
def print_int (n : Int) : List Nat :=
  if n < 0 then 45 :: print_nat n.natAbs else print_nat n.toNat

/-- Right justification in a field of width `w` (`%*d`): blanks on the left. -/
def pad_left (w : Nat) (s : List Nat) : List Nat :=
  List.replicate (w - s.length) 32 ++ s

/-- A non-negative `float` value `num / 2 ^ sh`. -/
structure c_float where
  num : Nat
  sh : Nat
  deriving DecidableEq, Repr

/-- The integer part of the binary logarithm, by halving (the first argument
bounds the number of halvings). -/
def ilog2 : Nat → Nat → Nat
  | 0, _ => 0
  | fuel + 1, n => if n < 2 then 0 else ilog2 fuel (n / 2) + 1

/-- The integer nearest to `num / den`, ties to the even one. -/
def round_half_even (num den : Nat) : Nat :=
  let q := num / den
  let r := num % den
  if 2 * r < den then q
  else if 2 * r > den then q + 1
  else if q % 2 = 0 then q else q + 1

/-- The `float` (IEEE binary32, 24-bit significand, round to nearest even)
nearest to the rational `num / den`, for `num / den ≥ 1` or `num = 0`, the
values the program produces. -/
def round_to_float (num den : Nat) : c_float :=
  let e := ilog2 (num / den + 1) (num / den)
  if e ≤ 23 then ⟨round_half_even (num * 2 ^ (23 - e)) den, 23 - e⟩
  else ⟨round_half_even num (den * 2 ^ (e - 23)) * 2 ^ (e - 23), 0⟩

/-- The conversion `(float)bytes` of a `uint64_t`. -/
def u64_to_float (bytes : Nat) : c_float := round_to_float bytes 1

/-- The division `x / d` of a `float` by an `int` constant `d` that converts
to `float` exactly (1000, 1000000 and 1000000000 do). -/
def float_div (x : c_float) (d : Nat) : c_float := round_to_float x.num (2 ^ x.sh * d)

/-- The comparison `x >= n` of a `float` with an integral constant. -/
def float_ge (x : c_float) (n : Nat) : Bool := decide (n * 2 ^ x.sh ≤ x.num)

/-- The conversion `(int)x` of a `float`: truncation, see `float_to_int`. -/
def float_trunc (x : c_float) : Int := float_to_int ((x.num / 2 ^ x.sh : Nat) : Int)

/-- The conversion `%.1f` of `printf`: the value rounded to one decimal (nearest,
ties to even, on the exact binary value), integer part, point, one digit. -/
def print_float1 (x : c_float) : List Nat :=
  let t := round_half_even (x.num * 10) (2 ^ x.sh)
  print_nat (t / 10) ++ [46] ++ print_nat (t % 10)

/-- The macro `KB(N)`. -/
def KB (n : Nat) : Nat := 1000 * n
/-- The macro `MB(N)`. -/
def MB (n : Nat) : Nat := 1000 * KB n
/-- The macro `GB(N)`. -/
def GB (n : Nat) : Nat := 1000 * MB n

/-- The first half of `print_size`: the pair `(size_header, size)`; the header
is 0 (`'\0'`), 71 (`'G'`), 77 (`'M'`) or 75 (`'K'`). -/
def print_size_scale (bytes : Nat) : Nat × c_float :=
  if bytes ≥ GB 1 then (71, float_div (u64_to_float bytes) (GB 1))
  else if bytes ≥ MB 1 then (77, float_div (u64_to_float bytes) (MB 1))
  else if bytes ≥ KB 1 then (75, float_div (u64_to_float bytes) (KB 1))
  else (0, u64_to_float bytes)

/-- The function `print_size`: the bytes it writes. -/
def print_size (bytes : Nat) : List Nat :=
  let (size_header, size) := print_size_scale bytes
  if size_header ≠ 0 then
    if float_ge size 100 then [32] ++ print_int (float_trunc size) ++ [size_header]
    else if float_ge size 10 then [32, 32] ++ print_int (float_trunc size) ++ [size_header]
    else [32] ++ print_float1 size ++ [size_header]
  else [32] ++ pad_left 4 (print_int (float_trunc size))

/-- The function `cprint` called with the format `"%s"`: the colour escape
`ESC [38;2;r;g;b m`, the string, the reset escape `ESC [0m`. -/
def cprint (r g b : Int) (s : List Nat) : List Nat :=
  [27] ++ cstr "[38;2;" ++ print_int r ++ [59] ++ print_int g ++ [59] ++ print_int b ++ [109]
    ++ s ++ [27] ++ cstr "[0m"

/-- The function `print_name`: the bytes it writes; byte 39 is the single quote. -/
def print_name (file : xp_file) : List Nat :=
  let spaces := has_spaces file.name
  let name := if spaces then [39] ++ file.name ++ [39] else file.name
  if file.attributes &&& XP_DIRECTORY ≠ 0 then cprint 0 0x84 0xD4 name
  else if file.attributes &&& XP_EXECUTABLE ≠ 0 then cprint 0x56 0xDB 0x3A name
  else name

/-- The first loop of `print_wide_format`: the running `max_name_length`. -/
def max_name_length_loop (files : List xp_file) : Nat → Nat → Int → Int
  | 0, _, max_name_length => max_name_length
  | k + 1, file_index, max_name_length =>
    match files[file_index]? with
    | some file =>
      let name_length := get_name_length file.name
      max_name_length_loop files k (file_index + 1)
        (if name_length > max_name_length then name_length else max_name_length)
    | none => max_name_length

/-- The layout arithmetic of `print_wide_format`: `(max_name_length, rows, cols)`
as they stand when the printing loops start. Division of `int` truncates. -/
def wide_layout (line_length : Int) (dir : xp_directory) : Int × Int × Int :=
  let max_name_length := max_name_length_loop dir.files dir.file_count 0 0
  let max_name_length := max_name_length + 2
  let cols := line_length.tdiv max_name_length
  let cols := if cols ≤ 0 then 1 else cols
  let rows := (dir.file_count : Int).tdiv cols
  let rows := if rows ≤ 0 then 1 else rows
  let cols := (dir.file_count : Int).tdiv rows
  (max_name_length, rows, cols)

/-- The inner loop of `print_wide_format` (over `col`): the first numeric
argument is the number of iterations left, then `col` and `file_index`. -/
def wide_col_loop (dir : xp_directory) (max_name_length rows cols : Int) :
    Nat → Int → Int → List Nat
  | 0, _, _ => []
  | k + 1, col, file_index =>
    if file_index ≥ dir.file_count then []
    else
      match dir.files[file_index.toNat]? with
      | some file =>
        let pad :=
          if col < cols - 1 then
            let len := get_name_length file.name
            let spaces := if rows = 1 then 2 else max_name_length - len
            List.replicate spaces.toNat 32
          else []
        print_name file ++ pad
          ++ wide_col_loop dir max_name_length rows cols k (col + 1) (file_index + rows)
      | none => []

/-- The outer loop of `print_wide_format` (over `row`); byte 10 is the newline. -/
def wide_row_loop (dir : xp_directory) (max_name_length rows cols : Int) :
    Nat → Int → List Nat
  | 0, _ => []
  | k + 1, row =>
    wide_col_loop dir max_name_length rows cols cols.toNat 0 row ++ [10]
      ++ wide_row_loop dir max_name_length rows cols k (row + 1)

/-- The function `print_wide_format`: the bytes it writes, the global
`line_length` made a parameter. -/
def print_wide_format (line_length : Int) (dir : xp_directory) : List Nat :=
  let (max_name_length, rows, cols) := wide_layout line_length dir
  wide_row_loop dir max_name_length rows cols rows.toNat 0

/-- The three divisors of `print_wide_format`, each as it stands at its
division: `max_name_length` in `line_length / max_name_length`, `cols` in
`dir.file_count / cols`, `rows` in `dir.file_count / rows`. -/
def wide_divisors (line_length : Int) (dir : xp_directory) : Int × Int × Int :=
  let max_name_length := max_name_length_loop dir.files dir.file_count 0 0
  let max_name_length := max_name_length + 2
  let cols := line_length.tdiv max_name_length
  let cols := if cols ≤ 0 then 1 else cols
  let rows := (dir.file_count : Int).tdiv cols
  let rows := if rows ≤ 0 then 1 else rows
  (max_name_length, cols, rows)

/-- The sort keys `SORT_NAME`, `SORT_EXTENSION`, `SORT_TIME` of the anonymous enum. -/
def SORT_NAME : Nat := 0
/-- The sort key `SORT_EXTENSION`. -/
def SORT_EXTENSION : Nat := 1
/-- The sort key `SORT_TIME`. -/
def SORT_TIME : Nat := 2

/-- The function `sort_directory_files`: the `switch` on `sort_type`, no case
for any other value. The platform-conditional `compare_file_time` is a
parameter. -/
def sort_directory_files (compare_file_time : xp_file → xp_file → Int)
    (dir : xp_directory) (sort_type : Nat) : xp_directory :=
  if sort_type = SORT_NAME then sort_files dir compare_file_name
  else if sort_type = SORT_EXTENSION then sort_files dir compare_file_extension
  else if sort_type = SORT_TIME then sort_files dir compare_file_time
  else dir

/-! ## Long format (lister.c) and local time (xpath.h) -/

/-- The struct `xp_time`, all fields `uint32_t`. -/
structure xp_time where
  year : Nat
  month : Nat
  day : Nat
  hour : Nat
  minute : Nat
  second : Nat
  milliseconds : Nat
  deriving DecidableEq, Repr

/-- The Win32 struct `SYSTEMTIME`, the fields the program reads. -/
structure SYSTEMTIME where
  wYear : Nat
  wMonth : Nat
  wDay : Nat
  wHour : Nat
  wMinute : Nat
  wSecond : Nat
  wMilliseconds : Nat
  deriving DecidableEq, Repr

/-- The function `xp_utc_time`, `_WIN32` branch. The two Win32 conversions are
parameters; each gives its result, or `none` when the call fails (returns
`FALSE`). -/
def xp_utc_time_win32 (FileTimeToLocalFileTime : FILETIME → Option FILETIME)
    (FileTimeToSystemTime : FILETIME → Option SYSTEMTIME) (time : Nat) : xp_time :=
  let utc_time : xp_time := ⟨0, 0, 0, 0, 0, 0, 0⟩
  let ft : FILETIME := ⟨time % 2 ^ 32, (time / 2 ^ 32) % 2 ^ 32⟩
  match FileTimeToLocalFileTime ft with
  | some local_ft =>
    match FileTimeToSystemTime local_ft with
    | some systime =>
      ⟨systime.wYear, systime.wMonth, systime.wDay, systime.wHour, systime.wMinute,
        systime.wSecond, systime.wMilliseconds⟩
    | none => utc_time
  | none => utc_time

/-- The C struct `tm`, the fields the program reads. -/
structure tm where
  tm_year : Int
  tm_mon : Int
  tm_mday : Int
  tm_hour : Int
  tm_min : Int
  tm_sec : Int
  deriving DecidableEq, Repr

/-- The conversion of an `int` to `uint32_t`. -/
def int_to_u32 (x : Int) : Nat := (x % 2 ^ 32).toNat

/-- The function `xp_utc_time`, `__linux__` branch. The C library call
`localtime` is a parameter, `none` being its `NULL` result; the function
dereferences the result, so it returns nothing (`none`) then. The argument is
`(time_t)time`, a signed 64-bit value. -/
def xp_utc_time_linux (localtime : Int → Option tm) (time : Nat) : Option xp_time :=
  let time_ : Int := if time % 2 ^ 64 < 2 ^ 63 then (time % 2 ^ 64 : Nat) else (time % 2 ^ 64 : Nat) - 2 ^ 64
  match localtime time_ with
  | none => none
  | some local_time =>
    some ⟨int_to_u32 local_time.tm_year, int_to_u32 (local_time.tm_mon + 1),
      int_to_u32 local_time.tm_mday, int_to_u32 local_time.tm_hour,
      int_to_u32 local_time.tm_min, int_to_u32 local_time.tm_sec, 0⟩

/-- The table `months`. -/
def months : List (List Nat) :=
  [cstr "Jan", cstr "Feb", cstr "Mar", cstr "Apr", cstr "May", cstr "Jun", cstr "Jul",
    cstr "Aug", cstr "Sep", cstr "Oct", cstr "Nov", cstr "Dec"]

/-- The index `time.month - 1` of `print_long_format`: `month` is `uint32_t`, so
the subtraction is done in 32-bit unsigned arithmetic. -/
def month_index (time : xp_time) : Nat := (time.month + 2 ^ 32 - 1) % 2 ^ 32

/-- A `uint32_t` argument read by `printf` as the `int` that `%d` expects. -/
def u32_to_int (x : Nat) : Int := if x < 2 ^ 31 then (x : Int) else (x : Int) - 2 ^ 32

/-- The conversion `%.2d` of `printf`: at least two digits, zeros on the left. -/
def print_int_prec2 (n : Int) : List Nat :=
  if n < 0 then 45 :: (List.replicate (2 - (print_nat n.natAbs).length) 48 ++ print_nat n.natAbs)
  else List.replicate (2 - (print_nat n.toNat).length) 48 ++ print_nat n.toNat

/-- The body of the loop of `print_long_format` for one entry: the bytes written,
or `none` when the behaviour is undefined (`xp_utc_time` does not return, or the
index is outside the table `months`). The platform-conditional `xp_utc_time` is
a parameter; byte 58 is the colon. -/
def print_long_line (xp_utc_time : Nat → Option xp_time) (file : xp_file) :
    Option (List Nat) :=
  match xp_utc_time file.time with
  | none => none
  | some time =>
    match months[month_index time]? with
    | none => none
    | some month =>
      some (print_size file.bytes ++ [32] ++ month ++ [32]
        ++ pad_left 2 (print_int (u32_to_int time.day)) ++ [32]
        ++ print_int_prec2 (u32_to_int time.hour) ++ [58]
        ++ print_int_prec2 (u32_to_int time.minute) ++ [32]
        ++ print_name file ++ [10])

/-- The loop of `print_long_format`: the first numeric argument is the number of
iterations left, the second is `file_index`. -/
def print_long_loop (xp_utc_time : Nat → Option xp_time) (files : List xp_file) :
    Nat → Nat → Option (List Nat)
  | 0, _ => some []
  | k + 1, file_index =>
    match files[file_index]? with
    | none => none
    | some file =>
      match print_long_line xp_utc_time file with
      | none => none
      | some line =>
        match print_long_loop xp_utc_time files k (file_index + 1) with
        | none => none
        | some rest => some (line ++ rest)

/-- The function `print_long_format`. -/
def print_long_format (xp_utc_time : Nat → Option xp_time) (dir : xp_directory) :
    Option (List Nat) :=
  print_long_loop xp_utc_time dir.files dir.file_count 0

/-! ## Paths (xpath.h) -/

/-- The column width in the words of the specification: the longest display
length of an entry name, plus 2. -/
def column_width (dir : xp_directory) : Int :=
  (dir.files.map (fun f => get_name_length f.name)).foldl max 0 + 2


/-- Insertion of `key` into a prefix held in reverse (nearest element first):
the elements that compare greater than `key` are passed, `key` is put before
the first one that does not. -/
def insert_rev (sort_func : xp_file → xp_file → Int) (key : xp_file) :
    List xp_file → List xp_file
  | [] => [key]
  | a :: rp => if sort_func a key > 0 then a :: insert_rev sort_func key rp else key :: a :: rp

/-- Insertion sort with the sorted prefix held in reverse. -/
def sort_rev (sort_func : xp_file → xp_file → Int) : List xp_file → List xp_file → List xp_file
  | rp, [] => rp.reverse
  | rp, key :: rest => sort_rev sort_func (insert_rev sort_func key rp) rest

/-- The comparison loop run over the common length of two strings. -/
def str_diff (s1 s2 : List Nat) : Int :=
  diff_loop s1 s2 (min s1.length s2.length) 0

/-! ## Theorems -/

open List

theorem diff_loop_cons (a b : Nat) (s1 s2 : List Nat) (k i : Nat) :
    diff_loop (a :: s1) (b :: s2) k (i + 1) = diff_loop s1 s2 k i := by
  induction k generalizing i with
  | zero => rfl
  | succ k ih => simp only [diff_loop, List.getD_cons_succ, ih]

theorem str_diff_nil_left (s : List Nat) : str_diff [] s = 0 := by
  simp [str_diff, diff_loop]

theorem str_diff_nil_right (s : List Nat) : str_diff s [] = 0 := by
  simp [str_diff, diff_loop]

theorem str_diff_cons (a b : Nat) (s1 s2 : List Nat) :
    str_diff (a :: s1) (b :: s2) =
      if char_to_int a - char_to_int b = 0 then str_diff s1 s2
      else char_to_int a - char_to_int b := by
  simp only [str_diff, List.length_cons, Nat.succ_min_succ, diff_loop, List.getD_cons_zero,
    diff_loop_cons]

theorem compare_file_name_eq (file1 file2 : xp_file) :
    compare_file_name file1 file2 = str_diff file1.name file2.name := rfl

theorem str_diff_append_left (s t : List Nat) : str_diff s (s ++ t) = 0 := by
  induction s with
  | nil => exact str_diff_nil_left _
  | cons a s ih => simp [str_diff_cons, ih]

theorem str_diff_append_right (s t : List Nat) : str_diff (s ++ t) s = 0 := by
  induction s with
  | nil => exact str_diff_nil_right _
  | cons a s ih => simp [str_diff_cons, ih]

/-- C5: when the name of `file1` is a prefix of the name of `file2` (equal names
included), `compare_file_name` returns 0 in both argument orders. -/
theorem compare_file_name_prefix_zero (file1 file2 : xp_file)
    (h : file1.name <+: file2.name) :
    compare_file_name file1 file2 = 0 ∧ compare_file_name file2 file1 = 0 := by
  obtain ⟨t, ht⟩ := h
  rw [compare_file_name_eq, compare_file_name_eq, ← ht]
  exact ⟨str_diff_append_left _ _, str_diff_append_right _ _⟩

/-- C5 at the names "abc" and "abcdef". -/
theorem compare_file_name_prefix_zero_witness :
    cstr "abc" <+: cstr "abcdef" ∧
    compare_file_name ⟨cstr "abc", 0, 0, 0⟩ ⟨cstr "abcdef", 0, 0, 0⟩ = 0 ∧
    compare_file_name ⟨cstr "abcdef", 0, 0, 0⟩ ⟨cstr "abc", 0, 0, 0⟩ = 0 :=
  ⟨by decide, compare_file_name_prefix_zero ⟨cstr "abc", 0, 0, 0⟩ ⟨cstr "abcdef", 0, 0, 0⟩
    (by decide)⟩

/-! ### sort_files: the array loops compute an insertion sort -/

theorem insert_rev_length (f : xp_file → xp_file → Int) (key : xp_file) (rp : List xp_file) :
    (insert_rev f key rp).length = rp.length + 1 := by
  induction rp with
  | nil => rfl
  | cons a rp ih =>
    simp only [insert_rev]
    split <;> simp [ih]

theorem sort_files_shift_eq (f : xp_file → xp_file → Int) (key : xp_file)
    (pre : List xp_file) (x : xp_file) (suf : List xp_file) :
    sort_files_shift f key (pre ++ x :: suf) pre.length
      = (insert_rev f key pre.reverse).reverse ++ suf := by
  induction pre using List.reverseRecOn generalizing x suf with
  | nil => simp [sort_files_shift, insert_rev]
  | append_singleton pre a ih =>
    have hget : (pre ++ [a] ++ x :: suf)[pre.length]? = some a := by
      rw [List.append_assoc, List.getElem?_append_right (Nat.le_refl _)]
      simp
    have hset : ∀ y, (pre ++ [a] ++ x :: suf).set (pre.length + 1) y = pre ++ a :: y :: suf := by
      intro y
      rw [List.append_assoc, List.set_append_right _ _ (by omega)]
      simp
    rw [List.length_append, List.length_singleton, sort_files_shift, hget]
    simp only [List.reverse_append, List.reverse_singleton, List.singleton_append, insert_rev]
    split
    · rw [hset, ih]
      simp
    · rw [hset]
      simp

theorem sort_files_from_eq (f : xp_file → xp_file → Int) (rest pre : List xp_file) :
    sort_files_from f rest.length pre.length (pre ++ rest) = sort_rev f pre.reverse rest := by
  induction rest generalizing pre with
  | nil => simp [sort_files_from, sort_rev]
  | cons key rest ih =>
    have hget : (pre ++ key :: rest)[pre.length]? = some key := by
      rw [List.getElem?_append_right (Nat.le_refl _)]
      simp
    rw [List.length_cons, sort_files_from, hget]
    simp only [sort_rev]
    rw [sort_files_shift_eq]
    have hlen : ((insert_rev f key pre.reverse).reverse).length = pre.length + 1 := by
      simp [insert_rev_length]
    have := ih (insert_rev f key pre.reverse).reverse
    rw [hlen, List.reverse_reverse] at this
    exact this

/-- The embedding of `sort_files` computes the insertion sort `sort_rev`. -/
theorem sort_files_files (dir : xp_directory) (f : xp_file → xp_file → Int)
    (h : dir.file_count = dir.files.length) :
    (sort_files dir f).files = sort_rev f [] dir.files := by
  simp only [sort_files, h]
  cases hfs : dir.files with
  | nil => simp [sort_files_from, sort_rev]
  | cons a rest =>
    have := sort_files_from_eq f rest [a]
    simpa [sort_rev, insert_rev] using this

theorem sort_files_file_count (dir : xp_directory) (f : xp_file → xp_file → Int) :
    (sort_files dir f).file_count = dir.file_count := rfl

/-- What one insertion does: the prefix splits into the passed elements (all
greater than the key) and the kept ones (the nearest of which is not). -/
theorem insert_rev_spec (f : xp_file → xp_file → Int) (key : xp_file) (rp : List xp_file) :
    ∃ moved kept, rp = moved ++ kept ∧ insert_rev f key rp = moved ++ key :: kept ∧
      (∀ m ∈ moved, f m key > 0) ∧ (∀ x ∈ kept.head?, f x key ≤ 0) := by
  induction rp with
  | nil => exact ⟨[], [], rfl, rfl, by simp, by simp⟩
  | cons a rp ih =>
    by_cases ha : f a key > 0
    · obtain ⟨moved, kept, h1, h2, h3, h4⟩ := ih
      refine ⟨a :: moved, kept, by simp [h1], by simp [insert_rev, ha, h2], ?_, h4⟩
      intro m hm
      rcases List.mem_cons.mp hm with rfl | hm
      · exact ha
      · exact h3 m hm
    · refine ⟨[], a :: rp, rfl, by simp [insert_rev, ha], by simp, ?_⟩
      intro x hx
      simp only [List.head?_cons, Option.mem_def, Option.some.injEq] at hx
      subst hx
      omega

theorem insert_rev_perm (f : xp_file → xp_file → Int) (key : xp_file) (rp : List xp_file) :
    (insert_rev f key rp).Perm (key :: rp) := by
  induction rp with
  | nil => exact List.Perm.refl _
  | cons a rp ih =>
    simp only [insert_rev]
    split
    · exact (List.Perm.cons a ih).trans (List.Perm.swap key a rp)
    · exact List.Perm.refl _

theorem sort_rev_perm (f : xp_file → xp_file → Int) (rest rp : List xp_file) :
    (sort_rev f rp rest).Perm (rp.reverse ++ rest) := by
  induction rest generalizing rp with
  | nil => simp [sort_rev]
  | cons key rest ih =>
    simp only [sort_rev]
    refine (ih _).trans ?_
    have h1 : ((insert_rev f key rp).reverse).Perm (key :: rp.reverse) :=
      (List.reverse_perm _).trans ((insert_rev_perm f key rp).trans
        (List.Perm.cons key (List.reverse_perm rp).symm))
    refine (List.Perm.append_right rest h1).trans ?_
    have h2 : (rp.reverse ++ key :: rest).Perm (key :: (rp.reverse ++ rest)) := List.perm_middle
    simpa using h2.symm

/-- One insertion seen on the array: `kept ++ moved ++ key :: rest` becomes
`kept ++ key :: moved ++ rest`. -/
theorem insert_rev_reverse (f : xp_file → xp_file → Int) (key : xp_file) (rp : List xp_file) :
    ∃ kept moved, rp.reverse = kept ++ moved ∧
      (insert_rev f key rp).reverse = kept ++ key :: moved ∧
      (∀ m ∈ moved, f m key > 0) ∧ (∀ x ∈ kept.getLast?, f x key ≤ 0) := by
  obtain ⟨moved, kept, h1, h2, h3, h4⟩ := insert_rev_spec f key rp
  refine ⟨kept.reverse, moved.reverse, by simp [h1], by simp [h2], ?_, ?_⟩
  · intro m hm
    exact h3 m (List.mem_reverse.mp hm)
  · intro x hx
    rw [List.getLast?_reverse] at hx
    exact h4 x hx

/-! ### Stability -/

theorem pair_sublist_append (a b : xp_file) (X Y : List xp_file) :
    [a, b] <+ X ++ Y ↔ [a, b] <+ X ∨ (a ∈ X ∧ b ∈ Y) ∨ [a, b] <+ Y := by
  constructor
  · intro h
    obtain ⟨l1, l2, h12, h1, h2⟩ := List.sublist_append_iff.mp h
    match l1, h12, h1 with
    | [], h12, _ =>
      simp only [List.nil_append] at h12
      subst h12
      exact Or.inr (Or.inr h2)
    | [c], h12, h1 =>
      simp only [List.singleton_append, List.cons.injEq] at h12
      obtain ⟨rfl, rfl⟩ := h12
      exact Or.inr (Or.inl ⟨List.singleton_sublist.mp h1, List.singleton_sublist.mp h2⟩)
    | [c, d], h12, h1 =>
      simp only [List.cons_append, List.nil_append, List.cons.injEq] at h12
      obtain ⟨rfl, rfl, _⟩ := h12
      exact Or.inl h1
    | c :: d :: e :: l, h12, _ =>
      simp at h12
  · rintro (h | ⟨ha, hb⟩ | h)
    · exact h.trans (List.sublist_append_left X Y)
    · have := List.Sublist.append (List.singleton_sublist.mpr ha) (List.singleton_sublist.mpr hb)
      simpa using this
    · exact h.trans (List.sublist_append_right X Y)

theorem stable_step (f : xp_file → xp_file → Int) (a b key : xp_file)
    (K M R : List xp_file) (hM : ∀ m ∈ M, f m key > 0) (hab : f a b ≤ 0)
    (h : [a, b] <+ K ++ (M ++ key :: R)) : [a, b] <+ K ++ (key :: M ++ R) := by
  have hsub : M ++ R <+ key :: M ++ R := by simp
  rw [pair_sublist_append] at h ⊢
  rcases h with h | ⟨ha, hb⟩ | h
  · exact Or.inl h
  · refine Or.inr (Or.inl ⟨ha, ?_⟩)
    simp only [List.mem_append, List.mem_cons] at hb ⊢
    tauto
  · refine Or.inr (Or.inr ?_)
    rw [pair_sublist_append] at h
    rcases h with h | ⟨ha, hb⟩ | h
    · exact (h.trans (List.sublist_append_left M R)).trans hsub
    · rcases List.mem_cons.mp hb with rfl | hb
      · have := hM a ha
        omega
      · exact ((pair_sublist_append a b M R).mpr (Or.inr (Or.inl ⟨ha, hb⟩))).trans hsub
    · rcases List.sublist_cons_iff.mp h with h | ⟨r, hr, hrR⟩
      · exact (h.trans (List.sublist_append_right M R)).trans hsub
      · simp only [List.cons.injEq] at hr
        obtain ⟨rfl, rfl⟩ := hr
        have h2 : [b] <+ M ++ R := hrR.trans (List.sublist_append_right M R)
        simpa using List.Sublist.cons₂ a h2

theorem sort_rev_stable (f : xp_file → xp_file → Int) (a b : xp_file) (hab : f a b ≤ 0)
    (rest rp : List xp_file) (h : [a, b] <+ rp.reverse ++ rest) :
    [a, b] <+ sort_rev f rp rest := by
  induction rest generalizing rp with
  | nil => simpa [sort_rev] using h
  | cons key rest ih =>
    simp only [sort_rev]
    apply ih
    obtain ⟨kept, moved, h1, h2, h3, _⟩ := insert_rev_reverse f key rp
    rw [h2]
    rw [h1, List.append_assoc] at h
    have := stable_step f a b key kept moved rest h3 hab h
    simpa [List.append_assoc] using this

/-! ### Order after a sort -/

theorem insert_rev_chain (f : xp_file → xp_file → Int) (hanti : ∀ x y, f x y > 0 → f y x ≤ 0)
    (key : xp_file) (rp : List xp_file)
    (h : List.Chain' (fun x y => f x y ≤ 0) rp.reverse) :
    List.Chain' (fun x y => f x y ≤ 0) (insert_rev f key rp).reverse := by
  obtain ⟨kept, moved, h1, h2, h3, h4⟩ := insert_rev_reverse f key rp
  rw [h1, List.chain'_append] at h
  rw [h2, List.chain'_append]
  refine ⟨h.1, ?_, ?_⟩
  · cases moved with
    | nil => exact List.chain'_singleton _
    | cons m ms =>
      rw [List.chain'_cons]
      exact ⟨hanti m key (h3 m (List.mem_cons_self m ms)), h.2.1⟩
  · intro x hx y hy
    simp only [List.head?_cons, Option.mem_def, Option.some.injEq] at hy
    subst hy
    exact h4 x hx

theorem sort_rev_chain (f : xp_file → xp_file → Int) (hanti : ∀ x y, f x y > 0 → f y x ≤ 0)
    (rest rp : List xp_file) (h : List.Chain' (fun x y => f x y ≤ 0) rp.reverse) :
    List.Chain' (fun x y => f x y ≤ 0) (sort_rev f rp rest) := by
  induction rest generalizing rp with
  | nil => simpa [sort_rev] using h
  | cons key rest ih =>
    simp only [sort_rev]
    exact ih _ (insert_rev_chain f hanti key rp h)

theorem str_diff_neg (a b : List Nat) : str_diff b a = - str_diff a b := by
  induction a generalizing b with
  | nil => simp [str_diff_nil_left, str_diff_nil_right]
  | cons x xs ih =>
    cases b with
    | nil => simp [str_diff_nil_left, str_diff_nil_right]
    | cons y ys =>
      rw [str_diff_cons, str_diff_cons, ih ys]
      by_cases hxy : char_to_int x - char_to_int y = 0
      · have : char_to_int y - char_to_int x = 0 := by omega
        simp [hxy, this]
      · have : ¬ char_to_int y - char_to_int x = 0 := by omega
        simp only [hxy, this, if_false]
        omega

theorem compare_file_name_anti (x y : xp_file) (h : compare_file_name x y > 0) :
    compare_file_name y x ≤ 0 := by
  rw [compare_file_name_eq] at h ⊢
  rw [str_diff_neg]
  omega

theorem char_to_int_inj (x y : Nat) (hx : x < 256) (hy : y < 256)
    (h : char_to_int x = char_to_int y) : x = y := by
  unfold char_to_int at h
  split at h <;> split at h <;> omega

/-- On strings none of which is a proper prefix of another, the comparison is transitive. -/
theorem str_diff_trans (a b c : List Nat)
    (wa : ∀ x ∈ a, x < 256) (wb : ∀ x ∈ b, x < 256) (wc : ∀ x ∈ c, x < 256)
    (hab : a <+: b ∨ b <+: a → a = b) (hbc : b <+: c ∨ c <+: b → b = c)
    (h1 : str_diff a b ≤ 0) (h2 : str_diff b c ≤ 0) : str_diff a c ≤ 0 := by
  induction a generalizing b c with
  | nil => simp [str_diff_nil_left]
  | cons x xs ih =>
    cases b with
    | nil => exact absurd (hab (Or.inr (List.nil_prefix))) (by simp)
    | cons y ys =>
      cases c with
      | nil => exact absurd (hbc (Or.inr (List.nil_prefix))) (by simp)
      | cons z zs =>
        rw [str_diff_cons] at h1 h2 ⊢
        by_cases hxy : char_to_int x - char_to_int y = 0
        · by_cases hyz : char_to_int y - char_to_int z = 0
          · have hxz : char_to_int x - char_to_int z = 0 := by omega
            rw [if_pos hxy] at h1
            rw [if_pos hyz] at h2
            rw [if_pos hxz]
            have exy : x = y := char_to_int_inj x y (wa x (List.mem_cons_self _ _))
              (wb y (List.mem_cons_self _ _)) (by omega)
            have eyz : y = z := char_to_int_inj y z (wb y (List.mem_cons_self _ _))
              (wc z (List.mem_cons_self _ _)) (by omega)
            subst exy
            subst eyz
            refine ih ys zs (fun c hc => wa c (List.mem_cons_of_mem _ hc))
              (fun c hc => wb c (List.mem_cons_of_mem _ hc))
              (fun c hc => wc c (List.mem_cons_of_mem _ hc)) ?_ ?_ h1 h2
            · intro h
              have := hab (by simpa [List.prefix_cons_inj] using h)
              simpa using this
            · intro h
              have := hbc (by simpa [List.prefix_cons_inj] using h)
              simpa using this
          · rw [if_pos hxy] at h1
            rw [if_neg hyz] at h2
            have hxz : ¬ char_to_int x - char_to_int z = 0 := by omega
            rw [if_neg hxz]
            omega
        · rw [if_neg hxy] at h1
          by_cases hyz : char_to_int y - char_to_int z = 0
          · have hxz : ¬ char_to_int x - char_to_int z = 0 := by omega
            rw [if_neg hxz]
            omega
          · rw [if_neg hyz] at h2
            have hxz : ¬ char_to_int x - char_to_int z = 0 := by omega
            rw [if_neg hxz]
            omega

/-- A chain over a list on whose members the relation is transitive is pairwise ordered. -/
theorem chain_pairwise_of_trans_on (R : xp_file → xp_file → Prop) (l : List xp_file)
    (htr : ∀ x ∈ l, ∀ y ∈ l, ∀ z ∈ l, R x y → R y z → R x z)
    (h : List.Chain' R l) : List.Pairwise R l := by
  induction l with
  | nil => exact List.Pairwise.nil
  | cons a l ih =>
    have hl : List.Chain' R l := h.tail
    have hp : List.Pairwise R l :=
      ih (fun x hx y hy z hz => htr x (List.mem_cons_of_mem _ hx) y (List.mem_cons_of_mem _ hy)
        z (List.mem_cons_of_mem _ hz)) hl
    refine List.pairwise_cons.mpr ⟨?_, hp⟩
    cases l with
    | nil => simp
    | cons b l =>
      have hab : R a b := (List.chain'_cons.mp h).1
      intro c hc
      rcases List.mem_cons.mp hc with rfl | hc
      · exact hab
      · exact htr a (List.mem_cons_self _ _) b (List.mem_cons_of_mem _ (List.mem_cons_self _ _))
          c (List.mem_cons_of_mem _ (List.mem_cons_of_mem _ hc)) hab
          ((List.pairwise_cons.mp hp).1 c hc)

/-! ### C3: order after the name pass -/

/-- C3 (as stated) fails: for the names "ab", "a", "aa" the name pass leaves
the entries in this order, and the first compares greater than the third. -/
theorem sort_files_name_not_all_pairs :
    ¬ ∀ (i j : Nat)
        (hi : i < (sort_files ⟨⟨[], 0⟩,
          [⟨cstr "ab", 0, 0, 0⟩, ⟨cstr "a", 0, 0, 0⟩, ⟨cstr "aa", 0, 0, 0⟩], 3⟩
          compare_file_name).files.length)
        (hj : j < (sort_files ⟨⟨[], 0⟩,
          [⟨cstr "ab", 0, 0, 0⟩, ⟨cstr "a", 0, 0, 0⟩, ⟨cstr "aa", 0, 0, 0⟩], 3⟩
          compare_file_name).files.length),
        i < j →
        compare_file_name
          ((sort_files ⟨⟨[], 0⟩,
            [⟨cstr "ab", 0, 0, 0⟩, ⟨cstr "a", 0, 0, 0⟩, ⟨cstr "aa", 0, 0, 0⟩], 3⟩
            compare_file_name).files[i])
          ((sort_files ⟨⟨[], 0⟩,
            [⟨cstr "ab", 0, 0, 0⟩, ⟨cstr "a", 0, 0, 0⟩, ⟨cstr "aa", 0, 0, 0⟩], 3⟩
            compare_file_name).files[j]) ≤ 0 := by
  intro h
  have := h 0 2 (by decide) (by decide) (by decide)
  revert this
  decide

/-- C3 (amended): after `sort_files` with the name comparator every adjacent
pair of the result satisfies `compare_file_name ≤ 0`; and all pairs at positions
`i < j` do when no entry name is a proper prefix of another entry name. -/
theorem sort_files_name_order (dir : xp_directory) (h : dir.file_count = dir.files.length) :
    (∀ (k : Nat) (hk : k < (sort_files dir compare_file_name).files.length)
        (hk1 : k + 1 < (sort_files dir compare_file_name).files.length),
        compare_file_name ((sort_files dir compare_file_name).files[k])
          ((sort_files dir compare_file_name).files[k + 1]) ≤ 0) ∧
    ((∀ f ∈ dir.files, ∀ c ∈ f.name, c < 256) →
      (∀ a ∈ dir.files, ∀ b ∈ dir.files, a.name <+: b.name → a.name = b.name) →
      ∀ (i j : Nat) (hi : i < (sort_files dir compare_file_name).files.length)
        (hj : j < (sort_files dir compare_file_name).files.length), i < j →
        compare_file_name ((sort_files dir compare_file_name).files[i])
          ((sort_files dir compare_file_name).files[j]) ≤ 0) := by
  have hchain : List.Chain' (fun x y => compare_file_name x y ≤ 0)
      (sort_files dir compare_file_name).files := by
    rw [sort_files_files dir _ h]
    exact sort_rev_chain _ compare_file_name_anti _ [] (by simp)
  have hmem : ∀ x, x ∈ (sort_files dir compare_file_name).files → x ∈ dir.files := by
    intro x hx
    rw [sort_files_files dir _ h] at hx
    simpa using (sort_rev_perm compare_file_name dir.files []).mem_iff.mp hx
  constructor
  · intro k hk hk1
    have := List.chain'_iff_get.mp hchain k (by omega)
    simpa using this
  · intro hbytes hpf
    have hpw : List.Pairwise (fun x y => compare_file_name x y ≤ 0)
        (sort_files dir compare_file_name).files := by
      apply chain_pairwise_of_trans_on _ _ _ hchain
      intro x hx y hy z hz hxy hyz
      have mx := hmem x hx
      have my := hmem y hy
      have mz := hmem z hz
      rw [compare_file_name_eq] at hxy hyz ⊢
      refine str_diff_trans x.name y.name z.name (hbytes x mx) (hbytes y my) (hbytes z mz)
        ?_ ?_ hxy hyz
      · rintro (hp | hp)
        · exact hpf x mx y my hp
        · exact (hpf y my x mx hp).symm
      · rintro (hp | hp)
        · exact hpf y my z mz hp
        · exact (hpf z mz y my hp).symm
    intro i j hi hj hij
    exact List.pairwise_iff_getElem.mp hpw i j hi hj hij

/-- C3 (amended) at the names "b", "c", "a": the result is ordered at positions 0 and 2. -/
theorem sort_files_name_order_witness :
    compare_file_name
      ((sort_files ⟨⟨[], 0⟩,
        [⟨cstr "b", 0, 0, 0⟩, ⟨cstr "c", 0, 0, 0⟩, ⟨cstr "a", 0, 0, 0⟩], 3⟩
        compare_file_name).files.get ⟨0, by decide⟩)
      ((sort_files ⟨⟨[], 0⟩,
        [⟨cstr "b", 0, 0, 0⟩, ⟨cstr "c", 0, 0, 0⟩, ⟨cstr "a", 0, 0, 0⟩], 3⟩
        compare_file_name).files.get ⟨2, by decide⟩) ≤ 0 :=
  (sort_files_name_order ⟨⟨[], 0⟩,
      [⟨cstr "b", 0, 0, 0⟩, ⟨cstr "c", 0, 0, 0⟩, ⟨cstr "a", 0, 0, 0⟩], 3⟩ (by decide)).2
    (by decide) (by decide) 0 2 (by decide) (by decide) (by decide)

/-! ### C4: stability -/

/-- C4: `sort_files` is stable for every comparator: an entry `a` that precedes
an entry `b` with `sort_func a b = 0` still precedes it in the result; so after
the name pass and then the key pass, entries tied in the key keep the order the
name pass gave them. -/
theorem sort_files_stable (dir : xp_directory) (h : dir.file_count = dir.files.length)
    (sort_func : xp_file → xp_file → Int) (a b : xp_file) (htie : sort_func a b = 0) :
    ([a, b] <+ dir.files → [a, b] <+ (sort_files dir sort_func).files) ∧
    ([a, b] <+ (sort_files dir compare_file_name).files →
      [a, b] <+ (sort_files (sort_files dir compare_file_name) sort_func).files) := by
  have key : ∀ d : xp_directory, d.file_count = d.files.length →
      [a, b] <+ d.files → [a, b] <+ (sort_files d sort_func).files := by
    intro d hd hsub
    rw [sort_files_files d _ hd]
    exact sort_rev_stable sort_func a b (by omega) d.files [] (by simpa using hsub)
  refine ⟨key dir h, key _ ?_⟩
  rw [sort_files_file_count, h, sort_files_files dir _ h]
  simpa using ((sort_rev_perm compare_file_name dir.files []).length_eq).symm

/-- C4 at the names "b.c", "a.c", "a.b" with the extension comparator: "a.c"
and "b.c" tie on the extension and keep the order of the name pass. -/
theorem sort_files_stable_witness :
    [(⟨cstr "a.c", 0, 0, 0⟩ : xp_file), ⟨cstr "b.c", 0, 0, 0⟩] <+
      (sort_files (sort_files ⟨⟨[], 0⟩,
        [⟨cstr "b.c", 0, 0, 0⟩, ⟨cstr "a.c", 0, 0, 0⟩, ⟨cstr "a.b", 0, 0, 0⟩], 3⟩
        compare_file_name) compare_file_extension).files :=
  (sort_files_stable ⟨⟨[], 0⟩,
      [⟨cstr "b.c", 0, 0, 0⟩, ⟨cstr "a.c", 0, 0, 0⟩, ⟨cstr "a.b", 0, 0, 0⟩], 3⟩ (by decide)
      compare_file_extension ⟨cstr "a.c", 0, 0, 0⟩ ⟨cstr "b.c", 0, 0, 0⟩ (by decide)).2
    (by decide)

/-! ### C6: sign of the name comparison -/

theorem str_diff_common_prefix (p s t : List Nat) : str_diff (p ++ s) (p ++ t) = str_diff s t := by
  induction p with
  | nil => rfl
  | cons a p ih => simp [str_diff_cons, ih]

/-- The name comparison at the first differing position: the difference of the
two bytes there, each promoted from `char`. -/
theorem compare_file_name_first_diff (file1 file2 : xp_file) (p s t : List Nat) (x y : Nat)
    (h1 : file1.name = p ++ x :: s) (h2 : file2.name = p ++ y :: t)
    (hxy : char_to_int x ≠ char_to_int y) :
    compare_file_name file1 file2 = char_to_int x - char_to_int y := by
  rw [compare_file_name_eq, h1, h2, str_diff_common_prefix, str_diff_cons]
  rw [if_neg (by omega)]

/-- C6, at the failing input: the names are the UTF-8 string "é" (bytes 0xC3 0xA9)
and "a" (byte 0x61). They differ at position 0, where 0xC3 > 0x61 as byte values,
and `compare_file_name` returns the negative value -158. -/
theorem compare_file_name_high_byte :
    compare_file_name ⟨[0xC3, 0xA9], 0, 0, 0⟩ ⟨[0x61], 0, 0, 0⟩ = -158 ∧
    compare_file_name ⟨[0x61], 0, 0, 0⟩ ⟨[0xC3, 0xA9], 0, 0, 0⟩ = 158 ∧
    (0x61 : Nat) < 0xC3 := by
  decide

/-! ### C7: "." and ".." under the extension key -/

/-- C7, at the failing input: the provider order ".", "..", "#notes#", "b.txt",
all files shown. After the filter, the name pass and the extension pass, the
entry "#notes#" stands before "." and "..". -/
theorem extension_pass_dot_not_first :
    (sort_files (sort_files (filter_directory_files true ⟨⟨[], 0⟩,
        [⟨cstr ".", 0, 2, 0⟩, ⟨cstr "..", 0, 2, 0⟩, ⟨cstr "#notes#", 0, 1, 0⟩,
          ⟨cstr "b.txt", 0, 1, 0⟩], 4⟩)
      compare_file_name) compare_file_extension).files =
      [⟨cstr "#notes#", 0, 1, 0⟩, ⟨cstr ".", 0, 2, 0⟩, ⟨cstr "..", 0, 2, 0⟩,
        ⟨cstr "b.txt", 0, 1, 0⟩] := by
  decide

/-! ### C9: the time comparator -/

/-- The `_WIN32` branch of `compare_file_time` orders by the 64-bit timestamps,
later first. -/
theorem compare_file_time_win32_sign (f1 f2 : xp_file) (h1 : f1.time < 2 ^ 64)
    (h2 : f2.time < 2 ^ 64) :
    (f1.time > f2.time → compare_file_time_win32 f1 f2 < 0 ∧ compare_file_time_win32 f2 f1 > 0) ∧
    (f1.time = f2.time → compare_file_time_win32 f1 f2 = 0) := by
  have e1 : f1.time / 2 ^ 32 % 2 ^ 32 * 2 ^ 32 + f1.time % 2 ^ 32 = f1.time := by omega
  have e2 : f2.time / 2 ^ 32 % 2 ^ 32 * 2 ^ 32 + f2.time % 2 ^ 32 = f2.time := by omega
  simp only [compare_file_time_win32, CompareFileTime, e1, e2]
  constructor
  · intro h
    constructor
    · rw [if_pos h]
      decide
    · rw [if_neg (by omega), if_neg (by omega)]
      decide
  · intro h
    rw [if_neg (by omega), if_pos h.symm]

/-- C9, at the failing input, `__linux__` branch: `f1.time = 2 ^ 31` is later
than `f2.time = 0`; `compare_file_time(f2, f1)` converts the difference
2147483648.0 to `int`, which does not fit, and the result is negative
(as is `compare_file_time(f1, f2)`). -/
theorem compare_file_time_linux_wide_gap :
    compare_file_time_linux ⟨cstr "new", 0, 1, 2 ^ 31⟩ ⟨cstr "old", 0, 1, 0⟩ = -2147483648 ∧
    compare_file_time_linux ⟨cstr "old", 0, 1, 0⟩ ⟨cstr "new", 0, 1, 2 ^ 31⟩ = -2147483648 := by
  decide

/-! ### C8: the extension comparator on names without an extension -/

theorem get_file_extension_loop_no_dot (l : List Nat) (ext : Option (List Nat))
    (h : 46 ∉ l) : get_file_extension_loop l ext = ext := by
  induction l generalizing ext with
  | nil => rfl
  | cons c l ih =>
    have hc : c ≠ 46 := fun e => h (by simp [e])
    have hl : 46 ∉ l := fun m => h (List.mem_cons_of_mem _ m)
    simp [get_file_extension_loop, hc, ih _ hl]

theorem get_file_extension_loop_append (pre suf : List Nat) (ext : Option (List Nat)) :
    get_file_extension_loop (pre ++ 46 :: suf) ext = get_file_extension_loop suf (some suf) := by
  induction pre generalizing ext with
  | nil => simp [get_file_extension_loop]
  | cons c pre ih =>
    simp only [List.cons_append, get_file_extension_loop]
    split <;> exact ih _

theorem get_file_extension_last_dot (pre suf : List Nat) (h : 46 ∉ suf) :
    get_file_extension (pre ++ 46 :: suf) = some suf := by
  rw [get_file_extension, get_file_extension_loop_append, get_file_extension_loop_no_dot _ _ h]

theorem get_file_extension_no_dot (name : List Nat) (h : 46 ∉ name) :
    get_file_extension name = none :=
  get_file_extension_loop_no_dot name none h

theorem get_file_extension_loop_some (l : List Nat) (e : List Nat) :
    ∃ e2, get_file_extension_loop l (some e) = some e2 := by
  induction l generalizing e with
  | nil => exact ⟨e, rfl⟩
  | cons c l ih =>
    simp only [get_file_extension_loop]
    split
    · exact ih _
    · exact ih _

theorem get_file_extension_dot (name : List Nat) (h : 46 ∈ name) :
    ∃ e, get_file_extension name = some e := by
  obtain ⟨pre, suf, rfl⟩ := List.append_of_mem h
  rw [get_file_extension, get_file_extension_loop_append]
  exact get_file_extension_loop_some _ _

/-- C8: for an entry `a` whose name has no `'.'` (so `a` is not "." or ".."):
against a name without `'.'` the extension comparator returns 0; against a name
with a `'.'` it returns a negative value, and a positive one in the other
argument order when `b` is not "." or ".."; `get_file_extension` returns no
extension for `a` and, for a name `pre ++ "." ++ suf` with no `'.'` in `suf`
(the last `'.'`), the substring `suf` after it. -/
theorem compare_file_extension_no_dot (a b : xp_file) (ha : 46 ∉ a.name) :
    (46 ∉ b.name → compare_file_extension a b = 0) ∧
    (46 ∈ b.name → compare_file_extension a b < 0 ∧
      (b.name ≠ [46] → b.name ≠ [46, 46] → compare_file_extension b a > 0)) ∧
    get_file_extension a.name = none ∧
    (∀ pre suf, b.name = pre ++ 46 :: suf → 46 ∉ suf → get_file_extension b.name = some suf) := by
  have ha1 : a.name ≠ [46] := fun e => ha (by simp [e])
  have ha2 : a.name ≠ [46, 46] := fun e => ha (by simp [e])
  have hea := get_file_extension_no_dot a.name ha
  refine ⟨?_, ?_, hea, ?_⟩
  · intro hb
    simp [compare_file_extension, ha1, ha2, hea, get_file_extension_no_dot b.name hb]
  · intro hb
    obtain ⟨e, he⟩ := get_file_extension_dot b.name hb
    constructor
    · simp [compare_file_extension, ha1, ha2, hea, he]
    · intro hb1 hb2
      simp [compare_file_extension, hb1, hb2, hea, he]
  · intro pre suf hname hsuf
    rw [hname]
    exact get_file_extension_last_dot pre suf hsuf

/-- C8 at the names "Makefile" and "archive.tar.gz". -/
theorem compare_file_extension_no_dot_witness :
    compare_file_extension ⟨cstr "Makefile", 0, 1, 0⟩ ⟨cstr "archive.tar.gz", 0, 1, 0⟩ < 0 ∧
    compare_file_extension ⟨cstr "archive.tar.gz", 0, 1, 0⟩ ⟨cstr "Makefile", 0, 1, 0⟩ > 0 ∧
    get_file_extension (cstr "archive.tar.gz") = some (cstr "gz") :=
  have h := compare_file_extension_no_dot ⟨cstr "Makefile", 0, 1, 0⟩
    ⟨cstr "archive.tar.gz", 0, 1, 0⟩ (by decide)
  ⟨(h.2.1 (by decide)).1, (h.2.1 (by decide)).2 (by decide) (by decide),
    h.2.2.2 (cstr "archive.tar") (cstr "gz") (by decide) (by decide)⟩

/-! ### C2: the filter -/

theorem filter_loop_eq (all_files : Bool) (rest pre acc : List xp_file) :
    filter_loop all_files (pre ++ rest) rest.length pre.length (acc, acc.length) =
      (acc ++ rest.filter (file_interesting all_files),
        (acc ++ rest.filter (file_interesting all_files)).length) := by
  induction rest generalizing pre acc with
  | nil => simp [filter_loop]
  | cons f rest ih =>
    have hget : (pre ++ f :: rest)[pre.length]? = some f := by
      rw [List.getElem?_append_right (Nat.le_refl _)]
      simp
    have hstep := ih (pre ++ [f])
    simp only [List.length_append, List.length_singleton, List.append_assoc,
      List.singleton_append] at hstep
    rw [List.length_cons, filter_loop, hget]
    simp only
    by_cases hf : file_interesting all_files f = true
    · rw [if_pos hf]
      have := hstep (acc ++ [f])
      simp only [List.length_append, List.length_singleton, List.append_assoc,
        List.singleton_append] at this
      rw [this, List.filter_cons_of_pos hf]
      simp
      omega
    · rw [if_neg hf]
      rw [hstep acc, List.filter_cons_of_neg hf]
      simp

/-- The embedding of `filter_directory_files` keeps the interesting entries. -/
theorem filter_directory_files_eq (all_files : Bool) (dir : xp_directory)
    (h : dir.file_count = dir.files.length) :
    filter_directory_files all_files dir =
      { dir with files := dir.files.filter (file_interesting all_files),
                 file_count := (dir.files.filter (file_interesting all_files)).length } := by
  have := filter_loop_eq all_files dir.files [] []
  simp only [List.nil_append, List.length_nil] at this
  simp [filter_directory_files, h, this]

/-- C2: with `show_all` false, `filter_directory_files` leaves exactly the
entries whose Hidden bit is clear and whose name does not begin with `'.'`, in
their original order and unchanged, and sets `file_count` to their number. -/
theorem filter_directory_files_hidden (dir : xp_directory)
    (h : dir.file_count = dir.files.length) :
    (filter_directory_files false dir).files =
      dir.files.filter (fun f => decide (f.attributes &&& XP_HIDDEN = 0) &&
        decide (f.name.head? ≠ some 46)) ∧
    (filter_directory_files false dir).file_count =
      (dir.files.filter (fun f => decide (f.attributes &&& XP_HIDDEN = 0) &&
        decide (f.name.head? ≠ some 46))).length ∧
    (filter_directory_files false dir).path = dir.path := by
  have hfun : file_interesting false = (fun f => decide (f.attributes &&& XP_HIDDEN = 0) &&
      decide (f.name.head? ≠ some 46)) := by
    funext f
    by_cases h1 : f.attributes &&& XP_HIDDEN = 0
    · by_cases h2 : f.name.head? = some 46
      · simp [file_interesting, abnormal_file, h1, h2]
      · have h3 : f.name ≠ [46, 46] := fun e => h2 (by simp [e])
        simp [file_interesting, abnormal_file, h1, h2, h3]
    · simp [file_interesting, abnormal_file, h1]
  rw [filter_directory_files_eq false dir h, hfun]
  exact ⟨rfl, rfl, rfl⟩

/-- C2 at the entries ".hidden", "file.txt", "Dir" and an entry with the Hidden bit. -/
theorem filter_directory_files_hidden_witness :
    (filter_directory_files false ⟨⟨[], 0⟩,
      [⟨cstr ".hidden", 5, 1, 7⟩, ⟨cstr "file.txt", 10, 1, 8⟩, ⟨cstr "Dir", 0, 2, 9⟩,
        ⟨cstr "sys", 1, 5, 3⟩], 4⟩).files =
      [⟨cstr "file.txt", 10, 1, 8⟩, ⟨cstr "Dir", 0, 2, 9⟩] :=
  (filter_directory_files_hidden ⟨⟨[], 0⟩,
      [⟨cstr ".hidden", 5, 1, 7⟩, ⟨cstr "file.txt", 10, 1, 8⟩, ⟨cstr "Dir", 0, 2, 9⟩,
        ⟨cstr "sys", 1, 5, 3⟩], 4⟩ (by decide)).1.trans (by decide)

/-! ### C1: the wide grid -/

/-- C1, at the failing input: five entries with names of 28 characters on an
80-column line. The layout is 2 rows by 2 columns (`cols = 5 / 2`); the output
holds the entries 0, 2 and 1, 3, and the entry at index 4 is not written. -/
theorem print_wide_format_drops_entry :
    print_wide_format 80 ⟨⟨[], 0⟩,
      [⟨cstr "annual-report-2021-final.pdf", 0, 1, 0⟩,
        ⟨cstr "annual-report-2022-final.pdf", 0, 1, 0⟩,
        ⟨cstr "annual-report-2023-final.pdf", 0, 1, 0⟩,
        ⟨cstr "annual-report-2024-final.pdf", 0, 1, 0⟩,
        ⟨cstr "annual-report-2025-final.pdf", 0, 1, 0⟩], 5⟩ =
      cstr "annual-report-2021-final.pdf  annual-report-2023-final.pdf\nannual-report-2022-final.pdf  annual-report-2024-final.pdf\n" ∧
    wide_layout 80 ⟨⟨[], 0⟩,
      [⟨cstr "annual-report-2021-final.pdf", 0, 1, 0⟩,
        ⟨cstr "annual-report-2022-final.pdf", 0, 1, 0⟩,
        ⟨cstr "annual-report-2023-final.pdf", 0, 1, 0⟩,
        ⟨cstr "annual-report-2024-final.pdf", 0, 1, 0⟩,
        ⟨cstr "annual-report-2025-final.pdf", 0, 1, 0⟩], 5⟩ = (30, 2, 2) := by
  decide

/-! ### C10: the suffix of print_size -/

theorem toDigitsCore_suffix (fuel n : Nat) (ds : List Char) :
    ∃ pre, Nat.toDigitsCore 10 fuel n ds = pre ++ ds := by
  induction fuel generalizing n ds with
  | zero => exact ⟨[], rfl⟩
  | succ fuel ih =>
    simp only [Nat.toDigitsCore]
    split
    · exact ⟨[Nat.digitChar (n % 10)], rfl⟩
    · obtain ⟨pre, hpre⟩ := ih (n / 10) (Nat.digitChar (n % 10) :: ds)
      exact ⟨pre ++ [Nat.digitChar (n % 10)], by simp [hpre]⟩

theorem digitChar_toNat (d : Nat) (h : d < 10) : (Nat.digitChar d).toNat = 48 + d := by
  interval_cases d <;> rfl

/-- The last byte written for a natural number is its last decimal digit. -/
theorem print_nat_last (n : Nat) : ∃ pre, print_nat n = pre ++ [48 + n % 10] := by
  have h : ∃ pre, Nat.toDigits 10 n = pre ++ [Nat.digitChar (n % 10)] := by
    simp only [Nat.toDigits, Nat.toDigitsCore]
    split
    · exact ⟨[], rfl⟩
    · exact toDigitsCore_suffix n (n / 10) [Nat.digitChar (n % 10)]
  obtain ⟨pre, hpre⟩ := h
  refine ⟨pre.map Char.toNat, ?_⟩
  simp [print_nat, hpre, digitChar_toNat (n % 10) (Nat.mod_lt _ (by decide))]

theorem ilog2_le (fuel n k : Nat) (h : n < 2 ^ (k + 1)) : ilog2 fuel n ≤ k := by
  induction fuel generalizing n k with
  | zero => simp [ilog2]
  | succ fuel ih =>
    simp only [ilog2]
    split
    · omega
    · cases k with
      | zero => omega
      | succ k =>
        have : n / 2 < 2 ^ (k + 1) := by
          rw [Nat.div_lt_iff_lt_mul (by decide)]
          rw [pow_succ] at h
          omega
        have := ih (n / 2) k this
        omega

theorem round_half_even_one (x : Nat) : round_half_even x 1 = x := by
  simp [round_half_even, Nat.mod_one]

/-- The conversion `(float)bytes` is exact below `2 ^ 24`, and truncates back to `bytes`. -/
theorem float_trunc_u64_to_float (bytes : Nat) (h : bytes < 2 ^ 24) :
    float_trunc (u64_to_float bytes) = (bytes : Int) := by
  have he : ilog2 (bytes / 1 + 1) (bytes / 1) ≤ 23 := ilog2_le _ _ 23 (by simpa using h)
  simp only [u64_to_float, round_to_float, if_pos he, round_half_even_one, float_trunc]
  rw [Nat.mul_div_cancel _ (by positivity)]
  have h2 : (bytes : Int) < 2 ^ 24 := by exact_mod_cast h
  simp only [float_to_int]
  rw [if_pos (by constructor <;> omega)]

theorem print_size_header (bytes : Nat) (h : (print_size_scale bytes).1 ≠ 0) :
    ∃ pre, print_size bytes = pre ++ [(print_size_scale bytes).1] := by
  unfold print_size
  rcases hs : print_size_scale bytes with ⟨hd, size⟩
  rw [hs] at h
  simp only at h ⊢
  rw [if_pos h]
  split
  · exact ⟨_, rfl⟩
  · split
    · exact ⟨_, rfl⟩
    · exact ⟨_, rfl⟩

theorem print_size_small (bytes : Nat) (h : bytes < 1000) :
    print_size bytes = 32 :: pad_left 4 (print_nat bytes) := by
  have hs : print_size_scale bytes = (0, u64_to_float bytes) := by
    simp only [print_size_scale, GB, MB, KB]
    rw [if_neg (by omega), if_neg (by omega), if_neg (by omega)]
  unfold print_size
  rw [hs]
  simp only [ne_eq, not_true_eq_false, if_false]
  rw [float_trunc_u64_to_float bytes (by omega)]
  have hn : ¬ ((bytes : Int) < 0) := by omega
  simp [print_int, hn]

theorem print_size_small_last (bytes : Nat) (h : bytes < 1000) :
    (print_size bytes).getLast? = some (48 + bytes % 10) := by
  obtain ⟨pre, hpre⟩ := print_nat_last bytes
  rw [print_size_small bytes h, pad_left, hpre]
  rw [← List.cons_append, ← List.append_assoc, List.getLast?_append]
  simp

/-- C10: the last byte `print_size` writes is `'G'` (71) exactly when
`bytes ≥ 10^9`, `'M'` (77) exactly when `10^6 ≤ bytes < 10^9`, `'K'` (75) exactly
when `10^3 ≤ bytes < 10^6`; otherwise the output is one space followed by the
decimal integer right-justified in a field of width 4. -/
theorem print_size_suffix (bytes : Nat) :
    ((print_size bytes).getLast? = some 71 ↔ 10 ^ 9 ≤ bytes) ∧
    ((print_size bytes).getLast? = some 77 ↔ 10 ^ 6 ≤ bytes ∧ bytes < 10 ^ 9) ∧
    ((print_size bytes).getLast? = some 75 ↔ 10 ^ 3 ≤ bytes ∧ bytes < 10 ^ 6) ∧
    (bytes < 10 ^ 3 → print_size bytes = [32] ++ pad_left 4 (print_nat bytes)) := by
  have e9 : (10 : Nat) ^ 9 = 1000000000 := by norm_num
  have e6 : (10 : Nat) ^ 6 = 1000000 := by norm_num
  have e3 : (10 : Nat) ^ 3 = 1000 := by norm_num
  rw [e9, e6, e3]
  have hlast : ∀ hd, hd ≠ 0 → (print_size_scale bytes).1 = hd →
      (print_size bytes).getLast? = some hd := by
    intro hd h0 he
    obtain ⟨pre, hpre⟩ := print_size_header bytes (by rw [he]; exact h0)
    rw [hpre, he]
    simp
  by_cases hG : 1000000000 ≤ bytes
  · have hs : (print_size_scale bytes).1 = 71 := by
      simp only [print_size_scale, GB, MB, KB]
      rw [if_pos (by omega)]
    rw [hlast 71 (by decide) hs]
    refine ⟨by simp [hG], by simp; omega, by simp; omega, by omega⟩
  · by_cases hM : 1000000 ≤ bytes
    · have hs : (print_size_scale bytes).1 = 77 := by
        simp only [print_size_scale, GB, MB, KB]
        rw [if_neg (by omega), if_pos (by omega)]
      rw [hlast 77 (by decide) hs]
      refine ⟨by simp; omega, by simp; omega, by simp; omega, by omega⟩
    · by_cases hK : 1000 ≤ bytes
      · have hs : (print_size_scale bytes).1 = 75 := by
          simp only [print_size_scale, GB, MB, KB]
          rw [if_neg (by omega), if_neg (by omega), if_pos (by omega)]
        rw [hlast 75 (by decide) hs]
        refine ⟨by simp; omega, by simp; omega, by simp; omega, by omega⟩
      · have hb : bytes < 1000 := by omega
        rw [print_size_small_last bytes hb]
        have hm : bytes % 10 < 10 := Nat.mod_lt _ (by decide)
        refine ⟨?_, ?_, ?_, fun _ => print_size_small bytes hb⟩
        · simp only [Option.some.injEq]
          omega
        · simp only [Option.some.injEq]
          omega
        · simp only [Option.some.injEq]
          omega

/-- C10 at 999, 1000, 1000000 and 50000000000 bytes. -/
theorem print_size_suffix_witness :
    print_size 999 = [32] ++ pad_left 4 (print_nat 999) ∧
    (print_size 1000).getLast? = some 75 ∧
    (print_size 1000000).getLast? = some 77 ∧
    (print_size 50000000000).getLast? = some 71 :=
  ⟨(print_size_suffix 999).2.2.2 (by decide),
    (print_size_suffix 1000).2.2.1.mpr (by decide),
    (print_size_suffix 1000000).2.1.mpr (by decide),
    (print_size_suffix 50000000000).1.mpr (by decide)⟩

/-! ### C11, C12: the strings print_size writes -/

/-- C11 (as stated) fails: for 999 bytes `print_size` does not write " 999"
(it writes two blanks before the digits), and for 50000000000 bytes it does
not write " 50G". -/
theorem print_size_examples_not_as_stated :
    ¬ (print_size 999 = cstr " 999" ∧ print_size 1000 = cstr " 1.0K" ∧
      print_size 1000000 = cstr " 1.0M" ∧ print_size 50000000000 = cstr " 50G") := by
  decide

/-- C11 (amended): `print_size` writes exactly "  999" for 999 (a blank and the
integer in a field of width 4), " 1.0K" for 1000, " 1.0M" for 1000000 and
"  50G" (two blanks) for 50000000000. -/
theorem print_size_examples :
    print_size 999 = cstr "  999" ∧ print_size 1000 = cstr " 1.0K" ∧
    print_size 1000000 = cstr " 1.0M" ∧ print_size 50000000000 = cstr "  50G" := by
  decide

/-- C12, at the failing inputs: 999 and 9949 bytes are written in 5 characters,
while 9990 bytes give " 10.0K", 9999999 bytes give " 10.0M" and 10^12 bytes give
" 1000G", 6 characters each. -/
theorem print_size_width_varies :
    print_size 999 = cstr "  999" ∧ print_size 9949 = cstr " 9.9K" ∧
    print_size 9990 = cstr " 10.0K" ∧ print_size 9999999 = cstr " 10.0M" ∧
    print_size 1000000000000 = cstr " 1000G" ∧
    (print_size 999).length = 5 ∧ (print_size 9990).length = 6 ∧
    (print_size 9999999).length = 6 ∧ (print_size 1000000000000).length = 6 := by
  decide

/-! ### C14: the width of a row -/

/-- C14, at the failing input: three entries with names of 38 characters on an
80-column line (`column_width` 40). The layout is 1 row of 3 columns and the
row written is 118 characters wide. -/
theorem print_wide_format_row_too_wide :
    wide_layout 80 ⟨⟨[], 0⟩,
      [⟨cstr "quarterly-summary-of-sales-europe.xlsx", 0, 1, 0⟩,
        ⟨cstr "quarterly-summary-of-sales-africa.xlsx", 0, 1, 0⟩,
        ⟨cstr "quarterly-summary-of-sales-brazil.xlsx", 0, 1, 0⟩], 3⟩ = (40, 1, 3) ∧
    print_wide_format 80 ⟨⟨[], 0⟩,
      [⟨cstr "quarterly-summary-of-sales-europe.xlsx", 0, 1, 0⟩,
        ⟨cstr "quarterly-summary-of-sales-africa.xlsx", 0, 1, 0⟩,
        ⟨cstr "quarterly-summary-of-sales-brazil.xlsx", 0, 1, 0⟩], 3⟩ =
      cstr "quarterly-summary-of-sales-europe.xlsx  quarterly-summary-of-sales-africa.xlsx  quarterly-summary-of-sales-brazil.xlsx\n" ∧
    (cstr "quarterly-summary-of-sales-europe.xlsx  quarterly-summary-of-sales-africa.xlsx  quarterly-summary-of-sales-brazil.xlsx").length = 118 := by
  decide

/-! ### C20, C15: the divisors, and the empty snapshot -/

theorem max_name_length_loop_ge (files : List xp_file) (k i : Nat) (m : Int) :
    m ≤ max_name_length_loop files k i m := by
  induction k generalizing i m with
  | zero => simp [max_name_length_loop]
  | succ k ih =>
    simp only [max_name_length_loop]
    split
    · split
      · exact le_trans (by omega) (ih _ _)
      · exact ih _ _
    · exact le_refl _

theorem wide_layout_eq_divisors (line_length : Int) (dir : xp_directory) :
    wide_layout line_length dir =
      ((wide_divisors line_length dir).1, (wide_divisors line_length dir).2.2,
        (dir.file_count : Int).tdiv (wide_divisors line_length dir).2.2) := rfl

/-- C20: `print_wide_format` never divides by zero: for every entry list and
every integer `line_length`, the divisor `max_name_length` is at least 2, and
the divisors `cols` and `rows` are at least 1, each where it divides. -/
theorem wide_divisors_positive (line_length : Int) (dir : xp_directory) :
    2 ≤ (wide_divisors line_length dir).1 ∧ 1 ≤ (wide_divisors line_length dir).2.1 ∧
    1 ≤ (wide_divisors line_length dir).2.2 := by
  have h := max_name_length_loop_ge dir.files dir.file_count 0 0
  simp only [wide_divisors]
  refine ⟨by omega, ?_, ?_⟩
  · split <;> omega
  · split <;> omega

/-- C15 (as stated) fails: for the empty snapshot on an 80-column line the
grid has 0 columns, not 1, and a newline is written. -/
theorem print_wide_format_empty_not_silent :
    ¬ ((wide_layout 80 ⟨⟨[], 0⟩, [], 0⟩).2 = (1, 1) ∧
      print_wide_format 80 ⟨⟨[], 0⟩, [], 0⟩ = []) := by
  decide

/-- C15 (amended): for a snapshot with zero entries and every line width,
`print_wide_format` works with 1 row and 0 columns and writes exactly one
newline. -/
theorem print_wide_format_empty (line_length : Int) (dir : xp_directory)
    (h : dir.file_count = 0) :
    (wide_layout line_length dir).2 = (1, 0) ∧ print_wide_format line_length dir = [10] := by
  have hl : wide_layout line_length dir = (2, 1, 0) := by
    simp [wide_layout, h, max_name_length_loop]
  simp [print_wide_format, hl, wide_row_loop, wide_col_loop]

/-- C15 (amended) at the empty snapshot and width 80. -/
theorem print_wide_format_empty_witness :
    (wide_layout 80 ⟨⟨[], 0⟩, [], 0⟩).2 = (1, 0) ∧ print_wide_format 80 ⟨⟨[], 0⟩, [], 0⟩ = [10] :=
  print_wide_format_empty 80 ⟨⟨[], 0⟩, [], 0⟩ rfl

/-! ### C16: display length -/

theorem get_name_length_loop_eq (name : List Nat) (length : Int) (spaces : Bool) :
    get_name_length_loop name (length, spaces) =
      (length + name.length, spaces || decide (32 ∈ name)) := by
  induction name generalizing length spaces with
  | nil => simp [get_name_length_loop]
  | cons c name ih =>
    simp only [get_name_length_loop]
    by_cases hc : c = 32
    · subst hc
      rw [if_pos rfl, ih]
      simp
      omega
    · have hc2 : ¬ (32 = c) := fun e => hc e.symm
      rw [if_neg hc, ih]
      simp [hc2]
      omega

theorem has_spaces_eq (name : List Nat) : has_spaces name = decide (32 ∈ name) := by
  induction name with
  | nil => simp [has_spaces]
  | cons c name ih =>
    simp only [has_spaces]
    by_cases hc : c = 32
    · subst hc
      simp
    · have hc2 : ¬ (32 = c) := fun e => hc e.symm
      rw [if_neg hc, ih]
      simp [hc2]

theorem get_name_length_eq (name : List Nat) :
    get_name_length name = if 32 ∈ name then (name.length : Int) + 2 else name.length := by
  simp only [get_name_length, get_name_length_loop_eq]
  by_cases h : 32 ∈ name <;> simp [h]

theorem cprint_directory (s : List Nat) :
    cprint 0 0x84 0xD4 s = [27] ++ cstr "[38;2;0;132;212m" ++ s ++ [27] ++ cstr "[0m" := by
  have e : [27] ++ cstr "[38;2;" ++ print_int 0 ++ [59] ++ print_int 0x84 ++ [59]
      ++ print_int 0xD4 ++ [109] = [27] ++ cstr "[38;2;0;132;212m" := by decide
  unfold cprint
  rw [e]

theorem cprint_executable (s : List Nat) :
    cprint 0x56 0xDB 0x3A s = [27] ++ cstr "[38;2;86;219;58m" ++ s ++ [27] ++ cstr "[0m" := by
  have e : [27] ++ cstr "[38;2;" ++ print_int 0x56 ++ [59] ++ print_int 0xDB ++ [59]
      ++ print_int 0x3A ++ [109] = [27] ++ cstr "[38;2;86;219;58m" := by decide
  unfold cprint
  rw [e]

/-- C16: for every entry, `print_name` writes the shown name, which is the name
itself when it holds no space and the name between two single quotes when it
does: bare for a plain entry, and for a directory or an executable between the
colour escape `ESC[38;2;r;g;bm` and the reset escape `ESC[0m`, byte for byte;
and `get_name_length` is the number of characters of the shown name: the length
of the name, plus 2 when it holds a space. -/
theorem get_name_length_display (file : xp_file) :
    (file.attributes &&& XP_DIRECTORY ≠ 0 →
      print_name file = [27] ++ cstr "[38;2;0;132;212m"
        ++ (if 32 ∈ file.name then [39] ++ file.name ++ [39] else file.name)
        ++ [27] ++ cstr "[0m") ∧
    (file.attributes &&& XP_DIRECTORY = 0 → file.attributes &&& XP_EXECUTABLE ≠ 0 →
      print_name file = [27] ++ cstr "[38;2;86;219;58m"
        ++ (if 32 ∈ file.name then [39] ++ file.name ++ [39] else file.name)
        ++ [27] ++ cstr "[0m") ∧
    (file.attributes &&& XP_DIRECTORY = 0 → file.attributes &&& XP_EXECUTABLE = 0 →
      print_name file = (if 32 ∈ file.name then [39] ++ file.name ++ [39] else file.name)) ∧
    get_name_length file.name =
      ((if 32 ∈ file.name then [39] ++ file.name ++ [39] else file.name).length : Int) ∧
    get_name_length file.name =
      (if 32 ∈ file.name then (file.name.length : Int) + 2 else file.name.length) := by
  refine ⟨?_, ?_, ?_, ?_, get_name_length_eq _⟩
  · intro hd
    simp only [print_name, has_spaces_eq, decide_eq_true_eq]
    rw [if_pos hd, cprint_directory]
  · intro hd he
    simp only [print_name, has_spaces_eq, decide_eq_true_eq]
    rw [if_neg (by simp [hd]), if_pos he, cprint_executable]
  · intro hd he
    simp only [print_name, has_spaces_eq, decide_eq_true_eq]
    rw [if_neg (by simp [hd]), if_neg (by simp [he])]
  · rw [get_name_length_eq]
    by_cases h : 32 ∈ file.name
    · simp [h]
      omega
    · simp [h]

/-- C16 at the directory "my files", the executable "run" and the plain file
"read me.txt": the bytes written, and the display lengths 10, 3 and 13. -/
theorem get_name_length_display_witness :
    print_name ⟨cstr "my files", 0, 2, 0⟩ =
      [27] ++ cstr "[38;2;0;132;212m" ++ ([39] ++ cstr "my files" ++ [39]) ++ [27] ++ cstr "[0m" ∧
    get_name_length (cstr "my files") = 10 ∧
    print_name ⟨cstr "run", 0, 0x21, 0⟩ =
      [27] ++ cstr "[38;2;86;219;58m" ++ cstr "run" ++ [27] ++ cstr "[0m" ∧
    get_name_length (cstr "run") = 3 ∧
    print_name ⟨cstr "read me.txt", 0, 1, 0⟩ = [39] ++ cstr "read me.txt" ++ [39] ∧
    get_name_length (cstr "read me.txt") = 13 :=
  ⟨((get_name_length_display ⟨cstr "my files", 0, 2, 0⟩).1 (by decide)).trans (by decide),
    ((get_name_length_display ⟨cstr "my files", 0, 2, 0⟩).2.2.2.1).trans (by decide),
    ((get_name_length_display ⟨cstr "run", 0, 0x21, 0⟩).2.1 (by decide) (by decide)).trans
      (by decide),
    ((get_name_length_display ⟨cstr "run", 0, 0x21, 0⟩).2.2.2.1).trans (by decide),
    ((get_name_length_display ⟨cstr "read me.txt", 0, 1, 0⟩).2.2.1 (by decide)
      (by decide)).trans (by decide),
    ((get_name_length_display ⟨cstr "read me.txt", 0, 1, 0⟩).2.2.2.1).trans (by decide)⟩

/-! ### C17: the filter when all files are shown -/

/-- C17: with `show_all` true `file_interesting` holds of every entry, and
`filter_directory_files` returns the snapshot as it was: the same entries in
the same order, the same `file_count`. -/
theorem filter_directory_files_show_all (dir : xp_directory)
    (h : dir.file_count = dir.files.length) :
    (∀ file, file_interesting true file = true) ∧ filter_directory_files true dir = dir := by
  have hall : ∀ file, file_interesting true file = true := by
    intro file
    simp [file_interesting]
  refine ⟨hall, ?_⟩
  rw [filter_directory_files_eq true dir h]
  have hf : dir.files.filter (file_interesting true) = dir.files :=
    List.filter_eq_self.mpr (fun a _ => hall a)
  rw [hf, ← h]

/-- C17 at the entries ".", "..", ".hidden", an entry with the Hidden bit, and "file.txt". -/
theorem filter_directory_files_show_all_witness :
    filter_directory_files true ⟨⟨cstr "/tmp", 4⟩,
      [⟨cstr ".", 0, 2, 0⟩, ⟨cstr "..", 0, 2, 0⟩, ⟨cstr ".hidden", 5, 1, 7⟩,
        ⟨cstr "sys", 1, 5, 3⟩, ⟨cstr "file.txt", 10, 1, 8⟩], 5⟩ =
      ⟨⟨cstr "/tmp", 4⟩,
      [⟨cstr ".", 0, 2, 0⟩, ⟨cstr "..", 0, 2, 0⟩, ⟨cstr ".hidden", 5, 1, 7⟩,
        ⟨cstr "sys", 1, 5, 3⟩, ⟨cstr "file.txt", 10, 1, 8⟩], 5⟩ :=
  (filter_directory_files_show_all ⟨⟨cstr "/tmp", 4⟩,
      [⟨cstr ".", 0, 2, 0⟩, ⟨cstr "..", 0, 2, 0⟩, ⟨cstr ".hidden", 5, 1, 7⟩,
        ⟨cstr "sys", 1, 5, 3⟩, ⟨cstr "file.txt", 10, 1, 8⟩], 5⟩ (by decide)).2

/-! ### C13: a single row -/

theorem max_name_length_loop_eq (rest pre : List xp_file) (m : Int) :
    max_name_length_loop (pre ++ rest) rest.length pre.length m =
      (rest.map (fun f => get_name_length f.name)).foldl max m := by
  induction rest generalizing pre m with
  | nil => simp [max_name_length_loop]
  | cons f rest ih =>
    have hget : (pre ++ f :: rest)[pre.length]? = some f := by
      rw [List.getElem?_append_right (Nat.le_refl _)]
      simp
    have hstep := ih (pre ++ [f])
    simp only [List.length_append, List.length_singleton, List.append_assoc,
      List.singleton_append] at hstep
    rw [List.length_cons, max_name_length_loop, hget]
    simp only [List.map_cons, List.foldl_cons]
    rw [hstep]
    congr 1
    rw [max_def]
    split <;> split <;> omega

theorem wide_divisors_fst (line_length : Int) (dir : xp_directory)
    (h : dir.file_count = dir.files.length) :
    (wide_divisors line_length dir).1 = column_width dir := by
  have := max_name_length_loop_eq dir.files [] 0
  simp only [List.nil_append, List.length_nil] at this
  simp only [wide_divisors, column_width, h, this]

theorem intercalate_cons_cons (sep x y : List Nat) (l : List (List Nat)) :
    List.intercalate sep (x :: y :: l) = x ++ sep ++ List.intercalate sep (y :: l) := by
  simp [List.intercalate, List.intersperse]

theorem wide_col_loop_single_row (dir : xp_directory) (m : Int) (rest pre : List xp_file)
    (hfiles : dir.files = pre ++ rest) (hcount : dir.file_count = pre.length + rest.length) :
    wide_col_loop dir m 1 (dir.file_count : Int) rest.length (pre.length : Int)
        (pre.length : Int) =
      List.intercalate [32, 32] (rest.map print_name) := by
  induction rest generalizing pre with
  | nil => simp [wide_col_loop, List.intercalate]
  | cons f rest ih =>
    have hget : dir.files[((pre.length : Int)).toNat]? = some f := by
      rw [hfiles, Int.toNat_ofNat, List.getElem?_append_right (Nat.le_refl _)]
      simp
    have hlt : ¬ ((pre.length : Int) ≥ (dir.file_count : Int)) := by
      rw [hcount]
      simp only [List.length_cons]
      push_cast
      omega
    have hrec := ih (pre ++ [f]) (by simp [hfiles]) (by simp [hcount]; omega)
    simp only [List.length_append, List.length_singleton, Nat.cast_add, Nat.cast_one] at hrec
    rw [List.length_cons, wide_col_loop, if_neg hlt, hget]
    simp only [if_true]
    rw [hrec]
    cases rest with
    | nil =>
      have hc : ¬ ((pre.length : Int) < (dir.file_count : Int) - 1) := by
        rw [hcount]
        simp
      rw [if_neg hc]
      simp [List.intercalate]
    | cons g rest =>
      have hc : (pre.length : Int) < (dir.file_count : Int) - 1 := by
        rw [hcount]
        simp only [List.length_cons]
        push_cast
        omega
      rw [if_pos hc]
      simp only [List.map_cons]
      rw [intercalate_cons_cons]
      simp [List.replicate]

/-- C13: for a non-empty entry list of `n` entries with
`n ≤ line_length / column_width`, `print_wide_format` works with 1 row and `n`
columns and writes one line: the rendered names in list order, two spaces
between consecutive names, and the newline after the last name. -/
theorem print_wide_format_single_row (line_length : Int) (dir : xp_directory)
    (h : dir.file_count = dir.files.length) (hne : dir.files ≠ [])
    (hfit : (dir.file_count : Int) ≤ line_length.tdiv (column_width dir)) :
    (wide_layout line_length dir).1 = column_width dir ∧
    (wide_layout line_length dir).2 = (1, (dir.file_count : Int)) ∧
    print_wide_format line_length dir =
      List.intercalate [32, 32] (dir.files.map print_name) ++ [10] := by
  have hpos : 0 < dir.file_count := by
    rw [h]
    exact List.length_pos.mpr hne
  have hposz : (0 : Int) < (dir.file_count : Int) := by exact_mod_cast hpos
  have hw := wide_divisors_fst line_length dir h
  have hcols : (wide_divisors line_length dir).2.1 = line_length.tdiv (column_width dir) := by
    have : (wide_divisors line_length dir).2.1 =
        if line_length.tdiv (wide_divisors line_length dir).1 ≤ 0 then 1
        else line_length.tdiv (wide_divisors line_length dir).1 := rfl
    rw [this, hw, if_neg (by omega)]
  have hrows : (wide_divisors line_length dir).2.2 = 1 := by
    have : (wide_divisors line_length dir).2.2 =
        if (dir.file_count : Int).tdiv (wide_divisors line_length dir).2.1 ≤ 0 then 1
        else (dir.file_count : Int).tdiv (wide_divisors line_length dir).2.1 := rfl
    rw [this, hcols]
    rcases lt_or_eq_of_le hfit with hlt | heq
    · rw [Int.tdiv_eq_zero_of_lt (by omega) hlt]
      simp
    · rw [← heq, Int.tdiv_self (by omega)]
      simp
  have hl : wide_layout line_length dir = (column_width dir, 1, (dir.file_count : Int)) := by
    rw [wide_layout_eq_divisors, hw, hrows, Int.tdiv_one]
  refine ⟨by rw [hl], by rw [hl], ?_⟩
  have hloop := wide_col_loop_single_row dir (column_width dir) dir.files [] (by simp)
    (by simp [h])
  simp only [List.length_nil, Nat.cast_zero] at hloop
  simp only [print_wide_format, hl, Int.toNat_one, wide_row_loop, Int.toNat_ofNat]
  rw [h] at hloop ⊢
  rw [hloop]
  simp

/-- C13 at the entries "a", "bb", "ccc" on an 80-column line: 1 row, 3 columns,
the line "a  bb  ccc". -/
theorem print_wide_format_single_row_witness :
    (wide_layout 80 ⟨⟨[], 0⟩,
      [⟨cstr "a", 0, 1, 0⟩, ⟨cstr "bb", 0, 1, 0⟩, ⟨cstr "ccc", 0, 1, 0⟩], 3⟩).2 = (1, 3) ∧
    print_wide_format 80 ⟨⟨[], 0⟩,
      [⟨cstr "a", 0, 1, 0⟩, ⟨cstr "bb", 0, 1, 0⟩, ⟨cstr "ccc", 0, 1, 0⟩], 3⟩ =
      cstr "a  bb  ccc\n" :=
  have h := print_wide_format_single_row 80 ⟨⟨[], 0⟩,
      [⟨cstr "a", 0, 1, 0⟩, ⟨cstr "bb", 0, 1, 0⟩, ⟨cstr "ccc", 0, 1, 0⟩], 3⟩
      (by decide) (by decide) (by decide)
  ⟨h.2.1, h.2.2.trans (by decide)⟩

/-! ### C18: the month lookup of the long format -/

/-- For a month in 1..12 the index is inside the table `months`. -/
theorem month_index_valid (time : xp_time) (h1 : 1 ≤ time.month) (h2 : time.month ≤ 12) :
    month_index time < 12 ∧ month_index time = time.month - 1 := by
  unfold month_index
  omega

/-- C18, at the failing input, `_WIN32` branch: an entry whose timestamp is
`2 ^ 63`, which the platform conversion rejects. `xp_utc_time` returns the
all-zero record; the index `time.month - 1` is then 4294967295, outside the
12-entry table, and the line of the entry has no defined rendering. -/
theorem print_long_format_zero_month :
    xp_utc_time_win32 (fun ft => if ft.dwHighDateTime < 2 ^ 31 then some ft else none)
      (fun _ => some ⟨2024, 3, 9, 7, 5, 0, 0⟩) (2 ^ 63) = ⟨0, 0, 0, 0, 0, 0, 0⟩ ∧
    month_index ⟨0, 0, 0, 0, 0, 0, 0⟩ = 4294967295 ∧
    months[month_index ⟨0, 0, 0, 0, 0, 0, 0⟩]? = none ∧
    print_long_format
      (fun t => some (xp_utc_time_win32
        (fun ft => if ft.dwHighDateTime < 2 ^ 31 then some ft else none)
        (fun _ => some ⟨2024, 3, 9, 7, 5, 0, 0⟩) t))
      ⟨⟨[], 0⟩, [⟨cstr "file.txt", 12345, 1, 2 ^ 63⟩], 1⟩ = none := by
  decide

/-! ### C19: append, then parent -/

/-- C21: for every comparator function and every entry list, `sort_files`
returns (the embedding is a total function) a permutation of its input: every
entry occurs in the result as many times as in the input, as the same record,
`file_count` and the path are unchanged; the same holds of
`sort_directory_files` for every sort key. -/
theorem sort_files_perm (dir : xp_directory) (h : dir.file_count = dir.files.length)
    (sort_func : xp_file → xp_file → Int) :
    (sort_files dir sort_func).files.Perm dir.files ∧
    (∀ file, (sort_files dir sort_func).files.count file = dir.files.count file) ∧
    (sort_files dir sort_func).files.length = dir.files.length ∧
    (sort_files dir sort_func).file_count = dir.file_count ∧
    (sort_files dir sort_func).path = dir.path ∧
    (∀ (compare_file_time : xp_file → xp_file → Int) (sort_type : Nat),
      (sort_directory_files compare_file_time dir sort_type).files.Perm dir.files ∧
      (sort_directory_files compare_file_time dir sort_type).file_count = dir.file_count) := by
  have key : ∀ f : xp_file → xp_file → Int, (sort_files dir f).files.Perm dir.files := by
    intro f
    rw [sort_files_files dir f h]
    simpa using sort_rev_perm f dir.files []
  refine ⟨key sort_func, fun file => (key sort_func).count_eq file, (key sort_func).length_eq,
    rfl, rfl, ?_⟩
  intro compare_file_time sort_type
  unfold sort_directory_files
  split
  · exact ⟨key _, rfl⟩
  · split
    · exact ⟨key _, rfl⟩
    · split
      · exact ⟨key _, rfl⟩
      · exact ⟨List.Perm.refl _, rfl⟩

/-- C21 at the entries "b.c", "a", "a" (a repeated record) and ".." with the
extension comparator, which is not antisymmetric: the record "a" occurs twice
in the result. -/
theorem sort_files_perm_witness :
    (sort_files ⟨⟨[], 0⟩,
      [⟨cstr "b.c", 3, 1, 9⟩, ⟨cstr "a", 1, 1, 5⟩, ⟨cstr "a", 1, 1, 5⟩, ⟨cstr "..", 0, 2, 7⟩], 4⟩
      compare_file_extension).files.count ⟨cstr "a", 1, 1, 5⟩ = 2 :=
  ((sort_files_perm ⟨⟨[], 0⟩,
      [⟨cstr "b.c", 3, 1, 9⟩, ⟨cstr "a", 1, 1, 5⟩, ⟨cstr "a", 1, 1, 5⟩, ⟨cstr "..", 0, 2, 7⟩], 4⟩
      (by decide) compare_file_extension).2.1 ⟨cstr "a", 1, 1, 5⟩).trans (by decide)

/-! ### C22: the name pass run twice -/

theorem insert_rev_of_le (f : xp_file → xp_file → Int) (key : xp_file) (rp : List xp_file)
    (h : ∀ x ∈ rp.head?, f x key ≤ 0) : insert_rev f key rp = key :: rp := by
  cases rp with
  | nil => rfl
  | cons a rp =>
    have ha : ¬ f a key > 0 := by
      have := h a (by simp)
      omega
    simp [insert_rev, ha]

/-- A list whose adjacent pairs are in order is left as it is by the sort. -/
theorem sort_rev_of_chain (f : xp_file → xp_file → Int) (rest rp : List xp_file)
    (h : List.Chain' (fun x y => f x y ≤ 0) (rp.reverse ++ rest)) :
    sort_rev f rp rest = rp.reverse ++ rest := by
  induction rest generalizing rp with
  | nil => simp [sort_rev]
  | cons key rest ih =>
    have hk : ∀ x ∈ rp.head?, f x key ≤ 0 := by
      intro x hx
      have h2 := (List.chain'_append.mp h).2.2 x (by rw [List.getLast?_reverse]; exact hx) key
        (by simp)
      exact h2
    simp only [sort_rev]
    rw [insert_rev_of_le f key rp hk]
    have h3 : List.Chain' (fun x y => f x y ≤ 0) ((key :: rp).reverse ++ rest) := by
      simpa [List.append_assoc] using h
    rw [ih (key :: rp) h3]
    simp

/-- C22: sorting by name is idempotent: the name pass run on the result of a
name pass leaves it unchanged, and after one name pass every adjacent pair of
entries satisfies `compare_file_name ≤ 0`. -/
theorem sort_files_name_idempotent (dir : xp_directory)
    (h : dir.file_count = dir.files.length) :
    sort_files (sort_files dir compare_file_name) compare_file_name =
      sort_files dir compare_file_name ∧
    (∀ compare_file_time : xp_file → xp_file → Int,
      sort_directory_files compare_file_time
          (sort_directory_files compare_file_time dir SORT_NAME) SORT_NAME =
        sort_directory_files compare_file_time dir SORT_NAME) ∧
    (∀ (k : Nat) (hk : k < (sort_files dir compare_file_name).files.length)
        (hk1 : k + 1 < (sort_files dir compare_file_name).files.length),
        compare_file_name ((sort_files dir compare_file_name).files[k])
          ((sort_files dir compare_file_name).files[k + 1]) ≤ 0) := by
  have hchain : List.Chain' (fun x y => compare_file_name x y ≤ 0)
      (sort_files dir compare_file_name).files := by
    rw [sort_files_files dir _ h]
    exact sort_rev_chain _ compare_file_name_anti _ [] (by simp)
  have hwf : (sort_files dir compare_file_name).file_count =
      (sort_files dir compare_file_name).files.length := by
    rw [sort_files_file_count, h, sort_files_files dir _ h]
    simpa using ((sort_rev_perm compare_file_name dir.files []).length_eq).symm
  have hfiles : (sort_files (sort_files dir compare_file_name) compare_file_name).files =
      (sort_files dir compare_file_name).files := by
    rw [sort_files_files _ _ hwf]
    simpa using sort_rev_of_chain compare_file_name (sort_files dir compare_file_name).files []
      (by simpa using hchain)
  have hidem : sort_files (sort_files dir compare_file_name) compare_file_name =
      sort_files dir compare_file_name := by
    have e : ∀ d : xp_directory, sort_files d compare_file_name =
        ⟨d.path, (sort_files d compare_file_name).files, d.file_count⟩ := fun d => rfl
    rw [e (sort_files dir compare_file_name), hfiles]
  refine ⟨hidem, ?_, ?_⟩
  · intro compare_file_time
    simpa [sort_directory_files] using hidem
  · intro k hk hk1
    have := List.chain'_iff_get.mp hchain k (by omega)
    simpa using this

/-- C22 at the names "ab", "b", "a", "aa": the second name pass changes nothing. -/
theorem sort_files_name_idempotent_witness :
    sort_files (sort_files ⟨⟨[], 0⟩,
      [⟨cstr "ab", 0, 1, 0⟩, ⟨cstr "b", 0, 1, 0⟩, ⟨cstr "a", 0, 1, 0⟩, ⟨cstr "aa", 0, 1, 0⟩], 4⟩
      compare_file_name) compare_file_name =
    sort_files ⟨⟨[], 0⟩,
      [⟨cstr "ab", 0, 1, 0⟩, ⟨cstr "b", 0, 1, 0⟩, ⟨cstr "a", 0, 1, 0⟩, ⟨cstr "aa", 0, 1, 0⟩], 4⟩
      compare_file_name :=
  (sort_files_name_idempotent ⟨⟨[], 0⟩,
      [⟨cstr "ab", 0, 1, 0⟩, ⟨cstr "b", 0, 1, 0⟩, ⟨cstr "a", 0, 1, 0⟩, ⟨cstr "aa", 0, 1, 0⟩], 4⟩
      (by decide)).1

end Lister
